import Mathlib

/-!
Verification development for the vinit document-extraction pipeline
(src/try.py and src/doc_loader.py), as a shallow embedding.

Python strings are modelled as List Char.  The models of the Python
string primitives (str.lower, str.strip, str.splitlines, the regex
substitutions used by the sources) are character-exact on the ASCII
range; the Unicode-only behaviours that none of the verified
properties depend on (full Unicode case mapping, the Unicode-only
whitespace code points above 0x7f) are not modelled: lowerChar is the
identity outside A-Z, and the whitespace / line-break classes are the
ASCII fragments of Python's classes.  All counterexamples used below
are pure-ASCII strings, so they can be replayed on the Python source
directly.
-/

namespace PyStr

/-- Model of Python str.lower, per character (ASCII case mapping). -/
def lowerChar (c : Char) : Char :=
  if 65 ≤ c.toNat ∧ c.toNat ≤ 90 then Char.ofNat (c.toNat + 32) else c

/-- Model of Python str.lower. -/
def lower (s : List Char) : List Char := s.map lowerChar

/-- The regex class [ \t] (a space or a tab), used by both normalizers'
whitespace-collapsing substitution. -/
def spaceTab (c : Char) : Bool := decide (c.toNat = 32 ∨ c.toNat = 9)

/-- The newline character, as the class matched by the regex \n+ in try.py. -/
def nlChar (c : Char) : Bool := decide (c.toNat = 10)

/-- ASCII fragment of Python's whitespace class: the class matched by the
regex \s for ASCII inputs, and the set stripped by str.strip().
Code points: tab 9, newline 10, vertical tab 11, form feed 12, carriage
return 13, the separator controls 28-31, and space 32. -/
def pyWs (c : Char) : Bool :=
  decide (c.toNat = 32 ∨ c.toNat = 9 ∨ c.toNat = 10 ∨ c.toNat = 11 ∨
    c.toNat = 12 ∨ c.toNat = 13 ∨ c.toNat = 28 ∨ c.toNat = 29 ∨
    c.toNat = 30 ∨ c.toNat = 31)

/-- ASCII fragment of the line boundaries recognised by Python
str.splitlines: newline 10, vertical tab 11, form feed 12, carriage
return 13 and the separator controls 28-30 (a "\r\n" pair counts as a
single boundary, handled in splitlines itself). -/
def lineBreak (c : Char) : Bool :=
  decide (c.toNat = 10 ∨ c.toNat = 11 ∨ c.toNat = 12 ∨ c.toNat = 13 ∨
    c.toNat = 28 ∨ c.toNat = 29 ∨ c.toNat = 30)

/-- Whitespace that can occur inside a single line: whitespace that is not
a line boundary. -/
def inlineWs (c : Char) : Bool := pyWs c && !lineBreak c

/-- Model of the regex substitution re.sub(p+, r, s) for a one-character
class p and a one-character replacement r: every maximal run of characters
matched by p is replaced by the single character r.  The Boolean argument
records whether the previous character was part of a run that has already
been replaced. -/
def collapseRunsAux (p : Char → Bool) (r : Char) : Bool → List Char → List Char
  | _, [] => []
  | inRun, c :: cs =>
      if p c then
        if inRun then collapseRunsAux p r true cs
        else r :: collapseRunsAux p r true cs
      else c :: collapseRunsAux p r false cs

/-- re.sub(p+, r, s) for a one-character class p and replacement r. -/
def collapseRuns (p : Char → Bool) (r : Char) (s : List Char) : List Char :=
  collapseRunsAux p r false s

/-- Prepend a character to the first line of a line list (helper for
splitlines). -/
def consHead (c : Char) : List (List Char) → List (List Char)
  | [] => [[c]]
  | l :: ls => (c :: l) :: ls

/-- Model of Python str.splitlines(): splits at the line-boundary
characters, treats a "\r\n" pair as a single boundary, and does not
produce a final empty line for a string that ends in a boundary. -/
def splitlines : List Char → List (List Char)
  | [] => []
  | c :: cs =>
      if c.toNat = 13 then
        match cs with
        | [] => [[]]
        | d :: cs2 => if d.toNat = 10 then [] :: splitlines cs2 else [] :: splitlines (d :: cs2)
      else if lineBreak c then [] :: splitlines cs
      else consHead c (splitlines cs)

/-- Model of "\n".join(lines). -/
def joinLines : List (List Char) → List Char
  | [] => []
  | [l] => l
  | l :: ls => l ++ '\n' :: joinLines ls

/-- Left part of Python str.strip(): drop leading whitespace. -/
def lstrip (s : List Char) : List Char := s.dropWhile pyWs

/-- Right part of Python str.strip(): drop trailing whitespace. -/
def rstrip (s : List Char) : List Char := (s.reverse.dropWhile pyWs).reverse

/-- Model of Python str.strip(). -/
def strip (s : List Char) : List Char := rstrip (lstrip s)

/-- The "no two adjacent characters of class p" relation, used to state that
a collapsed string has no run of length two. -/
def noTwo (p : Char → Bool) : Char → Char → Prop :=
  fun a b => ¬(p a = true ∧ p b = true)

/-- The adjacency constraints around newlines in a normalized string: no
inline whitespace stands directly after a newline and none directly
before one. -/
def edgeRel : Char → Char → Prop :=
  fun a b => ¬(a = '\n' ∧ inlineWs b = true) ∧ ¬(inlineWs a = true ∧ b = '\n')

end PyStr

namespace TryPy

/-- The set of characters kept by the filtering substitution of
try.py's preprocess_text, that is, the complement of the regex class
[^\n{allowed} ] with allowed = a-z0-9\|\.\,\!\?\:\;\'\"\(\)\[\]\{\}\-\_\/\\ :
newline 10, space 32, a-z (97-122), 0-9 (48-57), and the nineteen listed
punctuation characters (vertical bar 124, period 46, comma 44, bang 33,
question mark 63, colon 58, semicolon 59, single quote 39, double quote 34,
parens 40 41, square brackets 91 93, curly brackets 123 125, hyphen 45,
underscore 95, slash 47, backslash 92). -/
def allowedChar (c : Char) : Bool :=
  decide (c.toNat = 10 ∨ c.toNat = 32 ∨
    (97 ≤ c.toNat ∧ c.toNat ≤ 122) ∨ (48 ≤ c.toNat ∧ c.toNat ≤ 57) ∨
    c.toNat = 124 ∨ c.toNat = 46 ∨ c.toNat = 44 ∨ c.toNat = 33 ∨
    c.toNat = 63 ∨ c.toNat = 58 ∨ c.toNat = 59 ∨ c.toNat = 39 ∨
    c.toNat = 34 ∨ c.toNat = 40 ∨ c.toNat = 41 ∨ c.toNat = 91 ∨
    c.toNat = 93 ∨ c.toNat = 123 ∨ c.toNat = 125 ∨ c.toNat = 45 ∨
    c.toNat = 95 ∨ c.toNat = 47 ∨ c.toNat = 92)

/-- Stage 1 of try.py's preprocess_text (source lines 72-74): lower-case,
then remove every character outside the allowed class. -/
def filtered (s : List Char) : List Char := (PyStr.lower s).filter allowedChar

/-- Stage 2 (source line 75): re.sub of one or more spaces/tabs by one
space. -/
def collapsed (s : List Char) : List Char :=
  PyStr.collapseRuns PyStr.spaceTab ' ' (filtered s)

/-- Stage 3, the line list (source line 76): strip each line of
splitlines. -/
def strippedLines (s : List Char) : List (List Char) :=
  (PyStr.splitlines (collapsed s)).map PyStr.strip

/-- Stage 3, joined back (source line 76). -/
def joined (s : List Char) : List Char := PyStr.joinLines (strippedLines s)

/-- Model of preprocess_text from src/try.py (lines 71-78): the stages
above followed by the re.sub collapsing runs of newlines to one newline
(line 77). -/
def preprocess_text (s : List Char) : List Char :=
  PyStr.collapseRuns PyStr.nlChar '\n' (joined s)

end TryPy

namespace DocLoader

/-- The set of characters kept by the filtering substitution of
doc_loader.py's preprocess_text: the complement of [^\n{allowed}] with
allowed = a-z0-9\.\,\!\?\s — newline, a-z, 0-9, period, comma, bang,
question mark, and the whitespace class \s. -/
def allowedChar (c : Char) : Bool :=
  decide (c.toNat = 10 ∨
    (97 ≤ c.toNat ∧ c.toNat ≤ 122) ∨ (48 ≤ c.toNat ∧ c.toNat ≤ 57) ∨
    c.toNat = 46 ∨ c.toNat = 44 ∨ c.toNat = 33 ∨ c.toNat = 63 ∨
    PyStr.pyWs c = true)

/-- Stage 1 of doc_loader.py's preprocess_text (source lines 22-25):
lower-case, then remove every character outside the allowed class. -/
def filtered (s : List Char) : List Char := (PyStr.lower s).filter allowedChar

/-- Stage 2 (source line 27): re.sub of one or more tabs/spaces by one
space. -/
def collapsed (s : List Char) : List Char :=
  PyStr.collapseRuns PyStr.spaceTab ' ' (filtered s)

/-- Stage 3, the kept line list (source line 29): the lines of splitlines
that are non-blank once stripped, each stripped. -/
def keptLines (s : List Char) : List (List Char) :=
  ((PyStr.splitlines (collapsed s)).map PyStr.strip).filter (fun l => !l.isEmpty)

/-- Model of preprocess_text from src/doc_loader.py (lines 21-30): the
kept stripped lines joined by newlines. -/
def preprocess_text (s : List Char) : List Char :=
  PyStr.joinLines (keptLines s)

end DocLoader

namespace TryPy

/-- The shape invariants that one pass of try.py's preprocess_text
establishes: only allowed characters, no two adjacent spaces/tabs, no two
adjacent newlines, no inline whitespace next to a newline, and no inline
whitespace at either end of the string.  A string with these invariants
and no trailing newline is a fixed point of preprocess_text. -/
def normalish (t : List Char) : Prop :=
  (∀ c ∈ t, allowedChar c = true) ∧
  List.Chain' (PyStr.noTwo PyStr.spaceTab) t ∧
  List.Chain' (PyStr.noTwo PyStr.nlChar) t ∧
  List.Chain' PyStr.edgeRel t ∧
  (∀ y ∈ t.head?, PyStr.inlineWs y = false) ∧
  (∀ y ∈ t.getLast?, PyStr.inlineWs y = false)

end TryPy

namespace TryPy

/-- max_dim from resize_image_if_needed (source line 82). -/
def max_dim : ℚ := 2048

/-- max_pixels from resize_image_if_needed (source line 83). -/
def max_pixels : ℤ := 2048 * 2048

/-- The guard of the while loop on source line 87: int(w*scale) *
int(h*scale) exceeds max_pixels.  Python's int() truncates toward zero;
every value it is applied to here is nonnegative (w and h are image
dimensions, scale stays positive), where truncation and floor agree, so
the model uses the floor. -/
def loop_guard (w h : ℕ) (s : ℚ) : Prop :=
  max_pixels < ⌊(w : ℚ) * s⌋ * ⌊(h : ℚ) * s⌋

instance loop_guard_dec (w h : ℕ) (s : ℚ) : Decidable (loop_guard w h s) := by
  unfold loop_guard
  exact inferInstance

/-- The geometric-shrink while loop of resize_image_if_needed (source
lines 87-88): multiply scale by 0.95 = 19/20 while the guard holds.  The
positivity argument carries the call-site invariant 0 < scale under
which the loop terminates (the measure below reaches 0). -/
def resizeLoop (w h : ℕ) (s : ℚ) (hs : 0 < s) : ℚ :=
  if hg : loop_guard w h s then
    resizeLoop w h (s * (19 / 20)) (by positivity)
  else s
termination_by (⌊(20 : ℚ) * ((w : ℚ) * s)⌋).toNat
decreasing_by
  have _hfl1 : (0 : ℤ) ≤ ⌊(w : ℚ) * s⌋ := Int.floor_nonneg.mpr (by positivity)
  have hfl2 : (0 : ℤ) ≤ ⌊(h : ℚ) * s⌋ := Int.floor_nonneg.mpr (by positivity)
  have hprod : (0 : ℤ) < ⌊(w : ℚ) * s⌋ * ⌊(h : ℚ) * s⌋ :=
    lt_trans (by norm_num [max_pixels]) hg
  have ha : (1 : ℤ) ≤ ⌊(w : ℚ) * s⌋ := by nlinarith
  have hws : (1 : ℚ) ≤ (w : ℚ) * s := by
    have h2 := Int.le_floor.mp ha
    exact_mod_cast h2
  have harg : (20 : ℚ) * ((w : ℚ) * (s * (19 / 20))) = 19 * ((w : ℚ) * s) := by
    ring
  have hstep : (19 : ℚ) * ((w : ℚ) * s) + 1 ≤ 20 * ((w : ℚ) * s) := by linarith
  have h3 : ⌊(19 : ℚ) * ((w : ℚ) * s) + 1⌋ ≤ ⌊(20 : ℚ) * ((w : ℚ) * s)⌋ :=
    Int.floor_le_floor hstep
  rw [Int.floor_add_one] at h3
  have h4 : (0 : ℤ) ≤ ⌊(19 : ℚ) * ((w : ℚ) * s)⌋ :=
    Int.floor_nonneg.mpr (by nlinarith)
  have harg2 : (20 : ℚ) * ((w : ℚ) * (s * (19 / 20))) = (19 : ℚ) * ((w : ℚ) * s) := harg
  rw [harg2]
  omega

/-- scale as computed on source line 85: min(max_dim / w, max_dim / h, 1.0). -/
def initScale (w h : ℕ) : ℚ := min (min (max_dim / w) (max_dim / h)) 1

/-- The scale when the while loop of source lines 87-88 exits, starting
from initScale. -/
def finalScale (w h : ℕ) (hw : 0 < w) (hh : 0 < h) : ℚ :=
  resizeLoop w h (initScale w h) (by
    have hw2 : (0 : ℚ) < (w : ℚ) := by exact_mod_cast hw
    have hh2 : (0 : ℚ) < (h : ℚ) := by exact_mod_cast hh
    rw [initScale]
    simp only [lt_min_iff]
    exact ⟨⟨div_pos (by norm_num [max_dim]) hw2,
      div_pos (by norm_num [max_dim]) hh2⟩, by norm_num⟩)

/-- Model of resize_image_if_needed from src/try.py (lines 81-93) at the
dimension level: the pixel data and the LANCZOS resampling filter are
abstracted away and only the size computation is modelled.  The
positivity hypotheses reflect that a decoded raster image has nonzero
dimensions (Python would divide by zero otherwise). -/
def resize_image_if_needed (w h : ℕ) (hw : 0 < w) (hh : 0 < h) : ℕ × ℕ :=
  if finalScale w h hw hh < 1 then
    ((⌊(w : ℚ) * finalScale w h hw hh⌋).toNat,
      (⌊(h : ℚ) * finalScale w h hw hh⌋).toNat)
  else (w, h)

end TryPy

/-- The error conditions a processing call can raise: a parsing library
rejecting its input, a read of an unassigned local variable, and the
explicit ValueError of doc_loader's dispatcher. -/
inductive PyErr where
  | decodeFailure
  | unboundLocal
  | valueError
deriving DecidableEq

namespace OsPath

/-- Model of os.path.basename for POSIX paths: everything after the last
slash. -/
def basename (p : List Char) : List Char :=
  (p.reverse.takeWhile (fun c => !(c == '/'))).reverse

/-- The extension part of os.path.splitext: the suffix of the basename
from its last dot, provided some non-dot character stands before that
dot in the basename (so ".txt" has no extension, "a.tar.gz" has ".gz"). -/
def splitext_ext (p : List Char) : List Char :=
  let base := basename p
  if (base.dropWhile (fun c => c == '.')).any (fun c => c == '.') then
    '.' :: (base.reverse.takeWhile (fun c => !(c == '.'))).reverse
  else []

end OsPath

namespace TryPy

/-- One put_s3_object call (source lines 62-68): the key written, the
body bytes (bytes are modelled as lists of naturals) and the content
type.  A processing run is modelled by the list of these calls it makes,
in order, together with the exception it raises, if any. -/
structure S3Write where
  key : List Char
  body : List Nat
  contentType : List Char

/-- OUTPUT_PREFIX (source line 42). -/
def OUTPUT_PREFIX : List Char := ("trail-base-vedant-2025/").toList

/-- INPUT_PREFIX (source line 43). -/
def INPUT_PREFIX : List Char := ("uploads/").toList

/-- One body block of a DOCX document as iter_docx_blocks yields it
(source lines 136-144): a paragraph with its text, or a table with its
cell texts. -/
inductive DocxBlock where
  | para (text : List Char)
  | table (rows : List (List (List Char)))

/-- The lines process_docx builds from the blocks (source lines 149-157):
paragraph text; for a table one line per row with the cells joined by
" | ", then one empty line. -/
def docxBlockLines : List DocxBlock → List (List Char)
  | [] => []
  | .para t :: bs => t :: docxBlockLines bs
  | .table rows :: bs =>
      (rows.map (fun row => List.intercalate ((" | ").toList) row)) ++
        [] :: docxBlockLines bs

/-- The third-party collaborators of try.py as oracles: UTF-8 transcoding
(bytes.decode with errors="ignore", str.encode), PyPDF2 per-page text
extraction (extract_text may return None), PyMuPDF embedded-image listing
per page (the raw bytes doc.extract_image returns), the
Image.open + resize + save-to-PNG composite applied to every image
artifact, and python-docx block and relationship-image iteration.  The
theorems below quantify over an arbitrary environment, so they hold for
every behaviour of the libraries, including failures. -/
structure PyEnv where
  decodeUtf8 : List Nat → List Char
  encodeUtf8 : List Char → List Nat
  pdfPages : List Nat → Except PyErr (List (Option (List Char)))
  pdfImages : List Nat → Except PyErr (List (List (List Nat)))
  pngReencode : List Nat → Except PyErr (List Nat)
  docxBlocks : List Nat → Except PyErr (List DocxBlock)
  docxImages : List Nat → Except PyErr (List (List Nat))

/-- Model of process_txt (source lines 98-100): decode, normalize, write
one text object.  Nothing here raises (decoding ignores errors). -/
def process_txt (env : PyEnv) (content : List Nat) (base_key : List Char) :
    List S3Write × Option PyErr :=
  ([⟨base_key ++ ("/txt").toList,
      env.encodeUtf8 (preprocess_text (env.decodeUtf8 content)),
      ("text/plain").toList⟩], none)

/-- Model of process_image (source lines 103-108): open, resize and
re-encode the image (the composite oracle), write it under img.png. -/
def process_image (env : PyEnv) (content : List Nat) (base_key : List Char) :
    List S3Write × Option PyErr :=
  match env.pngReencode content with
  | .error e => ([], some e)
  | .ok png =>
      ([⟨base_key ++ ("/img.png").toList, png, ("image/png").toList⟩], none)

/-- The image loop of process_pdf (source lines 120-133) over the
flattened page images: skip an image below 512 bytes without consuming an
index; otherwise re-encode it and write it as img_{idx}.png, incrementing
idx.  The trace contains the writes made before any exception. -/
def pdfImagesLoop (env : PyEnv) (base_key : List Char) :
    List (List Nat) → ℕ → List S3Write × Option PyErr
  | [], _ => ([], none)
  | b :: rest, idx =>
      if b.length < 512 then pdfImagesLoop env base_key rest idx
      else
        match env.pngReencode b with
        | .error e => ([], some e)
        | .ok png =>
            let r := pdfImagesLoop env base_key rest (idx + 1)
            (⟨base_key ++ ("/img_").toList ++ (Nat.repr idx).toList ++
                (".png").toList, png, ("image/png").toList⟩ :: r.1, r.2)

/-- Model of process_pdf (source lines 111-133): write the normalized
join of the per-page texts (extract_text() or ""), then run the image
loop from index 1. -/
def process_pdf (env : PyEnv) (content : List Nat) (base_key : List Char) :
    List S3Write × Option PyErr :=
  match env.pdfPages content with
  | .error e => ([], some e)
  | .ok pages =>
      let text := preprocess_text (PyStr.joinLines (pages.map (fun p => p.getD [])))
      let tw : S3Write := ⟨base_key ++ ("/txt").toList, env.encodeUtf8 text,
        ("text/plain").toList⟩
      match env.pdfImages content with
      | .error e => ([tw], some e)
      | .ok pageImgs =>
          let r := pdfImagesLoop env base_key pageImgs.flatten 1
          (tw :: r.1, r.2)

/-- The image loop of process_docx (source lines 162-170): every
relationship image is re-encoded and written as img_{idx}.png (no size
filter here). -/
def docxImagesLoop (env : PyEnv) (base_key : List Char) :
    List (List Nat) → ℕ → List S3Write × Option PyErr
  | [], _ => ([], none)
  | b :: rest, idx =>
      match env.pngReencode b with
      | .error e => ([], some e)
      | .ok png =>
          let r := docxImagesLoop env base_key rest (idx + 1)
          (⟨base_key ++ ("/img_").toList ++ (Nat.repr idx).toList ++
              (".png").toList, png, ("image/png").toList⟩ :: r.1, r.2)

/-- Model of process_docx (source lines 147-170): write the normalized
join of the block lines, then the relationship images from index 1. -/
def process_docx (env : PyEnv) (content : List Nat) (base_key : List Char) :
    List S3Write × Option PyErr :=
  match env.docxBlocks content with
  | .error e => ([], some e)
  | .ok blocks =>
      let text := preprocess_text (PyStr.joinLines (docxBlockLines blocks))
      let tw : S3Write := ⟨base_key ++ ("/txt").toList, env.encodeUtf8 text,
        ("text/plain").toList⟩
      match env.docxImages content with
      | .error e => ([tw], some e)
      | .ok imgs =>
          let r := docxImagesLoop env base_key imgs 1
          (tw :: r.1, r.2)

/-- Model of process_file (source lines 175-192): dispatch on the
lower-cased extension of the key; the base key joins OUTPUT_PREFIX, the
current date (passed as a parameter, as the clock is an input) and the
file's basename.  An unsupported extension only logs a warning: no write,
no exception. -/
def process_file (env : PyEnv) (date : List Char) (key : List Char)
    (content : List Nat) : List S3Write × Option PyErr :=
  let ext := (OsPath.splitext_ext key).map PyStr.lowerChar
  let name := OsPath.basename key
  let base_key := OUTPUT_PREFIX ++ date ++ ('/' :: name)
  if ext = (".txt").toList then process_txt env content base_key
  else if ext = (".pdf").toList then process_pdf env content base_key
  else if ext = (".docx").toList then process_docx env content base_key
  else if ext ∈ [(".png").toList, (".jpg").toList, (".jpeg").toList] then
    process_image env content base_key
  else ([], none)

/-- Model of lambda_handler (source lines 197-219).  get_s3_object is one
storage read: the model receives the record's key and the fetched bytes
directly.  The top-level except clause logs and re-raises, which leaves
the write trace and the raised exception unchanged, so it is not
represented.  The processing function is a parameter (instantiated with
process_file in the source) so that "process_file is never invoked" can
be stated as: the result is write-free for every processing function. -/
def lambda_handler
    (processFn : List Char → List Nat → List S3Write × Option PyErr)
    (key : List Char) (content : List Nat) : List S3Write × Option PyErr :=
  if key.getLast? = some '/' then ([], none)
  else if OUTPUT_PREFIX.isPrefixOf key then ([], none)
  else if !(INPUT_PREFIX.isPrefixOf key) then ([], none)
  else processFn key content

/-- The image objects among a write trace: the writes with content type
image/png. -/
def image_writes (ws : List S3Write) : List S3Write :=
  ws.filter (fun wr => decide (wr.contentType = ("image/png").toList))

/-- The flattened list of raw embedded-image byte buffers of a PDF, page
by page, in order. -/
def pdf_images_flat (env : PyEnv) (content : List Nat) : List (List Nat) :=
  match env.pdfImages content with
  | .ok pageImgs => pageImgs.flatten
  | .error _ => []

/-- The write process_pdf makes for the i-th surviving embedded image. -/
def pdfImgWrite (env : PyEnv) (base_key : List Char) (i : ℕ) (b : List Nat) :
    S3Write :=
  ⟨base_key ++ ("/img_").toList ++ (Nat.repr i).toList ++ (".png").toList,
    (env.pngReencode b).toOption.getD [], ("image/png").toList⟩

/-- A concrete environment for the witnesses: decoding always yields the
C7 sample text, every other collaborator returns an empty success. -/
def sampleEnv : PyEnv where
  decodeUtf8 := fun _ => ("Hello   World\n\n\nFoo").toList
  encodeUtf8 := fun _ => []
  pdfPages := fun _ => .ok []
  pdfImages := fun _ => .ok []
  pngReencode := fun _ => .ok []
  docxBlocks := fun _ => .ok []
  docxImages := fun _ => .ok []

end TryPy

namespace DocLoader

/-- The collaborators of doc_loader.py's standalone mode as oracles: the
format loaders (which read the file at the path and may raise) and the
image extractors (which write image files locally and return the saved
paths). -/
structure LoaderEnv where
  loadTxt : List Char → Except PyErr (List Char)
  loadPdf : List Char → Except PyErr (List Char)
  loadDocx : List Char → Except PyErr (List Char)
  pdfImagePaths : List Char → Except PyErr (List (List Char))
  docxImagePaths : List Char → Except PyErr (List (List Char))

/-- Model of load_and_process_doc (source lines 104-117).  The Python
local variable images is assigned in the .pdf and .docx branches only;
the Option value none models it being unassigned.  The return statement
reads it, so in the .txt branch the call raises UnboundLocalError, which
the model makes explicit in the final match.  An unknown extension raises
ValueError (line 115). -/
def load_and_process_doc (env : LoaderEnv) (file_path : List Char) :
    Except PyErr (List Char × List (List Char)) :=
  let ext := (OsPath.splitext_ext file_path).map PyStr.lowerChar
  let branch : Except PyErr (List Char × Option (List (List Char))) :=
    if ext = (".pdf").toList then
      (env.loadPdf file_path).bind (fun raw =>
        (env.pdfImagePaths file_path).map (fun imgs => (raw, some imgs)))
    else if ext = (".docx").toList then
      (env.loadDocx file_path).bind (fun raw =>
        (env.docxImagePaths file_path).map (fun imgs => (raw, some imgs)))
    else if ext = (".txt").toList then
      (env.loadTxt file_path).map (fun raw => (raw, none))
    else .error .valueError
  match branch with
  | .error e => .error e
  | .ok (raw_text, images) =>
      let clean_text := preprocess_text raw_text
      match images with
      | some imgs => .ok (clean_text, imgs)
      | none => .error .unboundLocal

/-- A concrete loader environment for the witness: reading a text file
succeeds with the two-character content "hi". -/
def sampleLoaderEnv : LoaderEnv where
  loadTxt := fun _ => .ok (("hi").toList)
  loadPdf := fun _ => .error .decodeFailure
  loadDocx := fun _ => .error .decodeFailure
  pdfImagePaths := fun _ => .ok []
  docxImagePaths := fun _ => .ok []

end DocLoader



namespace PyStr

theorem charEq_of_toNat {c d : Char} (h : c.toNat = d.toNat) : c = d := by
  apply Char.ext
  exact UInt32.ext h

theorem collapseRunsAux_nil (p : Char → Bool) (r : Char) (b : Bool) :
    collapseRunsAux p r b [] = [] := rfl

theorem collapseRunsAux_cons (p : Char → Bool) (r : Char) (b : Bool) (c : Char)
    (cs : List Char) :
    collapseRunsAux p r b (c :: cs) =
      if p c then
        (if b then collapseRunsAux p r true cs
         else r :: collapseRunsAux p r true cs)
      else c :: collapseRunsAux p r false cs := rfl

theorem mem_collapseRunsAux (p : Char → Bool) (r : Char) :
    ∀ (s : List Char) (b : Bool) (c : Char), c ∈ collapseRunsAux p r b s →
      (c ∈ s ∧ p c = false) ∨ c = r := by
  intro s
  induction s with
  | nil => intro b c h; simp [collapseRunsAux_nil] at h
  | cons d ds ih =>
      intro b c h
      rw [collapseRunsAux_cons] at h
      by_cases hp : p d
      · rw [if_pos hp] at h
        cases b with
        | true =>
            rcases ih _ _ h with ⟨hm, hf⟩ | hr
            · exact Or.inl ⟨List.mem_cons_of_mem _ hm, hf⟩
            · exact Or.inr hr
        | false =>
            rcases List.mem_cons.mp h with rfl | h2
            · exact Or.inr rfl
            · rcases ih _ _ h2 with ⟨hm, hf⟩ | hr
              · exact Or.inl ⟨List.mem_cons_of_mem _ hm, hf⟩
              · exact Or.inr hr
      · rw [if_neg hp] at h
        rcases List.mem_cons.mp h with rfl | h2
        · exact Or.inl ⟨List.mem_cons_self _ _, Bool.not_eq_true _ ▸ hp⟩
        · rcases ih _ _ h2 with ⟨hm, hf⟩ | hr
          · exact Or.inl ⟨List.mem_cons_of_mem _ hm, hf⟩
          · exact Or.inr hr

theorem head_collapseRunsAux_true (p : Char → Bool) (r : Char) :
    ∀ (s : List Char) (y : Char),
      (collapseRunsAux p r true s).head? = some y → p y = false := by
  intro s
  induction s with
  | nil => intro y h; simp [collapseRunsAux_nil] at h
  | cons d ds ih =>
      intro y h
      rw [collapseRunsAux_cons] at h
      by_cases hp : p d
      · rw [if_pos hp, if_pos rfl] at h
        exact ih _ h
      · rw [if_neg hp] at h
        simp only [List.head?_cons, Option.some.injEq] at h
        subst h
        exact Bool.not_eq_true _ ▸ hp

theorem head_collapseRunsAux_false (p : Char → Bool) (r : Char) (s : List Char) :
    (collapseRunsAux p r false s).head? =
      s.head?.map (fun c => if p c then r else c) := by
  cases s with
  | nil => rfl
  | cons d ds =>
      rw [collapseRunsAux_cons]
      by_cases hp : p d
      · rw [if_pos hp]
        simp [hp]
      · rw [if_neg hp]
        simp [hp]

theorem chain_noTwo_collapseRunsAux (p : Char → Bool) (r : Char) :
    ∀ (s : List Char) (b : Bool),
      List.Chain' (noTwo p) (collapseRunsAux p r b s) := by
  intro s
  induction s with
  | nil => intro b; simp [collapseRunsAux_nil]
  | cons d ds ih =>
      intro b
      rw [collapseRunsAux_cons]
      by_cases hp : p d
      · rw [if_pos hp]
        cases b with
        | true => exact ih true
        | false =>
            rw [if_neg (by simp)]
            apply List.chain'_cons'.mpr
            refine ⟨?_, ih true⟩
            intro y hy
            have := head_collapseRunsAux_true p r ds y hy
            intro hcon
            rw [this] at hcon
            exact Bool.false_ne_true hcon.2
      · rw [if_neg hp]
        apply List.chain'_cons'.mpr
        refine ⟨?_, ih false⟩
        intro y hy
        intro hcon
        exact hp hcon.1

theorem collapseRunsAux_eq_self (p : Char → Bool) (r : Char) :
    ∀ (s : List Char),
      (∀ c ∈ s, p c = true → c = r) →
      List.Chain' (noTwo p) s →
      (collapseRunsAux p r false s = s ∧
        ((∀ y ∈ s.head?, p y = false) → collapseRunsAux p r true s = s)) := by
  intro s
  induction s with
  | nil => intro _ _; exact ⟨rfl, fun _ => rfl⟩
  | cons d ds ih =>
      intro hall hch
      obtain ⟨hhd, hch'⟩ := List.chain'_cons'.mp hch
      have ihds := ih (fun c hc hp => hall c (List.mem_cons_of_mem _ hc) hp) hch'
      constructor
      · rw [collapseRunsAux_cons]
        by_cases hp : p d
        · rw [if_pos hp, if_neg (by simp)]
          have hd : d = r := hall d (List.mem_cons_self _ _) hp
          have hdsh : ∀ y ∈ ds.head?, p y = false := by
            intro y hy
            have h2 := hhd y hy
            by_contra hcon
            exact h2 ⟨hp, Bool.of_not_eq_false hcon⟩
          rw [ihds.2 hdsh, hd]
        · rw [if_neg hp, ihds.1]
      · intro hhead
        have hp : p d = false := hhead d rfl
        rw [collapseRunsAux_cons, if_neg (by simp [hp]), ihds.1]

theorem collapseRuns_eq_self (p : Char → Bool) (r : Char) (s : List Char)
    (hall : ∀ c ∈ s, p c = true → c = r) (hch : List.Chain' (noTwo p) s) :
    collapseRuns p r s = s :=
  (collapseRunsAux_eq_self p r s hall hch).1

theorem chain_collapseRunsAux_of_eq (p : Char → Bool) (r : Char)
    (hpr : ∀ c, p c = true ↔ c = r) (S : Char → Char → Prop) :
    ∀ (s : List Char),
      (List.Chain' S s → List.Chain' S (collapseRunsAux p r false s)) ∧
      (List.Chain' S (r :: s) → List.Chain' S (r :: collapseRunsAux p r true s)) := by
  intro s
  induction s with
  | nil =>
      constructor
      · intro h; exact h
      · intro h; rw [collapseRunsAux_nil]; exact h
  | cons d ds ih =>
      have hfalse : List.Chain' S (d :: ds) →
          List.Chain' S (collapseRunsAux p r false (d :: ds)) := by
        intro h
        obtain ⟨hhd, htl⟩ := List.chain'_cons'.mp h
        rw [collapseRunsAux_cons]
        by_cases hp : p d
        · rw [if_pos hp, if_neg (by simp)]
          have hd : d = r := (hpr d).mp hp
          exact (ih.2) (hd ▸ h)
        · rw [if_neg hp]
          apply List.chain'_cons'.mpr
          refine ⟨?_, ih.1 htl⟩
          intro y hy
          rw [head_collapseRunsAux_false] at hy
          cases ds with
          | nil => simp at hy
          | cons e es =>
              simp only [List.head?_cons, Option.map_some', Option.mem_def,
                Option.some.injEq] at hy
              by_cases hpe : p e
              · rw [if_pos hpe] at hy
                have he : e = r := (hpr e).mp hpe
                have hde := hhd e (by simp)
                rw [← hy, ← he]
                exact hde
              · rw [if_neg hpe] at hy
                rw [← hy]
                exact hhd e (by simp)
      refine ⟨hfalse, ?_⟩
      intro h
      have htl : List.Chain' S (d :: ds) := h.tail
      have hrd : S r d := ((List.chain'_cons'.mp h).1) d (by simp)
      rw [collapseRunsAux_cons]
      by_cases hp : p d
      · rw [if_pos hp, if_pos rfl]
        have hd : d = r := (hpr d).mp hp
        apply ih.2
        rw [← hd]
        exact htl
      · rw [if_neg hp]
        apply List.chain'_cons'.mpr
        refine ⟨by simpa using hrd, ?_⟩
        have : d :: collapseRunsAux p r false ds = collapseRunsAux p r false (d :: ds) := by
          rw [collapseRunsAux_cons, if_neg hp]
        rw [this]
        exact hfalse htl

theorem chain_collapseRuns_of_eq (p : Char → Bool) (r : Char)
    (hpr : ∀ c, p c = true ↔ c = r) (S : Char → Char → Prop) (s : List Char)
    (h : List.Chain' S s) : List.Chain' S (collapseRuns p r s) :=
  (chain_collapseRunsAux_of_eq p r hpr S s).1 h

theorem head_collapseRuns_of_eq (p : Char → Bool) (r : Char)
    (hpr : ∀ c, p c = true ↔ c = r) (s : List Char) :
    (collapseRuns p r s).head? = s.head? := by
  rw [collapseRuns, head_collapseRunsAux_false]
  cases s with
  | nil => rfl
  | cons d ds =>
      simp only [List.head?_cons, Option.map_some']
      by_cases hp : p d
      · rw [if_pos hp, (hpr d).mp hp]
      · rw [if_neg hp]

theorem collapseRunsAux_false_ne_nil (p : Char → Bool) (r : Char) (c : Char)
    (cs : List Char) : collapseRunsAux p r false (c :: cs) ≠ [] := by
  rw [collapseRunsAux_cons]
  by_cases hp : p c
  · rw [if_pos hp, if_neg (by simp)]
    exact List.cons_ne_nil _ _
  · rw [if_neg hp]
    exact List.cons_ne_nil _ _

theorem getLast_collapseRunsAux_of_eq (p : Char → Bool) (r : Char)
    (hpr : ∀ c, p c = true ↔ c = r) :
    ∀ (s : List Char),
      (collapseRunsAux p r false s).getLast? = s.getLast? ∧
      (r :: collapseRunsAux p r true s).getLast? = (r :: s).getLast? := by
  intro s
  induction s with
  | nil => exact ⟨rfl, rfl⟩
  | cons d ds ih =>
      have hfst : (collapseRunsAux p r false (d :: ds)).getLast? = (d :: ds).getLast? := by
        rw [collapseRunsAux_cons]
        by_cases hp : p d
        · rw [if_pos hp, if_neg (by simp)]
          have hd : d = r := (hpr d).mp hp
          rw [hd]
          exact ih.2
        · rw [if_neg hp]
          cases ds with
          | nil => rfl
          | cons e es =>
              obtain ⟨w, ws, hX⟩ := List.exists_cons_of_ne_nil
                (collapseRunsAux_false_ne_nil p r e es)
              rw [hX, List.getLast?_cons_cons, List.getLast?_cons_cons, ← hX]
              exact ih.1
      refine ⟨hfst, ?_⟩
      rw [collapseRunsAux_cons]
      by_cases hp : p d
      · rw [if_pos hp, if_pos rfl]
        have hd : d = r := (hpr d).mp hp
        rw [List.getLast?_cons_cons, hd]
        exact ih.2
      · rw [if_neg hp, List.getLast?_cons_cons, List.getLast?_cons_cons]
        have h2 : d :: collapseRunsAux p r false ds = collapseRunsAux p r false (d :: ds) := by
          rw [collapseRunsAux_cons, if_neg hp]
        rw [h2]
        exact hfst

theorem getLast_collapseRuns_of_eq (p : Char → Bool) (r : Char)
    (hpr : ∀ c, p c = true ↔ c = r) (s : List Char) :
    (collapseRuns p r s).getLast? = s.getLast? :=
  (getLast_collapseRunsAux_of_eq p r hpr s).1

theorem splitlines_nil : splitlines [] = [] := rfl

theorem splitlines_cons_cr_nil (c : Char) (h : c.toNat = 13) :
    splitlines [c] = [[]] := by
  rw [splitlines.eq_def]
  simp only [h, if_true]

theorem splitlines_cons_crlf (c d : Char) (cs2 : List Char) (h : c.toNat = 13)
    (hd : d.toNat = 10) : splitlines (c :: d :: cs2) = [] :: splitlines cs2 := by
  rw [splitlines.eq_def]
  simp only [h, hd, if_true]

theorem splitlines_cons_cr (c d : Char) (cs2 : List Char) (h : c.toNat = 13)
    (hd : ¬ d.toNat = 10) :
    splitlines (c :: d :: cs2) = [] :: splitlines (d :: cs2) := by
  rw [splitlines.eq_def]
  simp only [h, hd, if_true, if_false]

theorem splitlines_cons_break (c : Char) (cs : List Char) (h13 : ¬ c.toNat = 13)
    (hb : lineBreak c = true) : splitlines (c :: cs) = [] :: splitlines cs := by
  rw [splitlines.eq_def]
  simp only [h13, hb, if_true, if_false]

theorem toNat_ne_cr_of_not_lineBreak (c : Char) (hb : lineBreak c = false) :
    ¬ c.toNat = 13 := by
  intro h
  simp [lineBreak, h] at hb

theorem splitlines_cons_char (c : Char) (cs : List Char)
    (hb : lineBreak c = false) :
    splitlines (c :: cs) = consHead c (splitlines cs) := by
  rw [splitlines.eq_def]
  simp only [toNat_ne_cr_of_not_lineBreak c hb, hb, if_false, Bool.false_eq_true]

theorem consHead_ne_nil (c : Char) (ls : List (List Char)) : consHead c ls ≠ [] := by
  cases ls <;> simp [consHead]

theorem splitlines_ne_nil (s : List Char) (h : s ≠ []) : splitlines s ≠ [] := by
  cases s with
  | nil => exact absurd rfl h
  | cons c cs =>
      by_cases h13 : c.toNat = 13
      · cases cs with
        | nil => rw [splitlines_cons_cr_nil c h13]; simp
        | cons d cs2 =>
            by_cases hd : d.toNat = 10
            · rw [splitlines_cons_crlf c d cs2 h13 hd]; simp
            · rw [splitlines_cons_cr c d cs2 h13 hd]; simp
      · by_cases hb : lineBreak c
        · rw [splitlines_cons_break c cs h13 hb]; simp
        · rw [splitlines_cons_char c cs (Bool.not_eq_true _ ▸ hb)]
          exact consHead_ne_nil _ _

theorem splitlines_chars (s : List Char) :
    ∀ l ∈ splitlines s, ∀ x ∈ l, lineBreak x = false := by
  induction s using splitlines.induct with
  | case1 => intro l hl; simp [splitlines_nil] at hl
  | case2 d h13 =>
      intro l hl
      rw [splitlines_cons_cr_nil d h13] at hl
      simp only [List.mem_singleton] at hl
      subst hl
      intro x hx
      simp at hx
  | case3 d h13 d1 cs2 hd ih =>
      intro l hl
      rw [splitlines_cons_crlf d d1 cs2 h13 hd] at hl
      rcases List.mem_cons.mp hl with rfl | hl2
      · intro x hx; simp at hx
      · exact ih l hl2
  | case4 d h13 d1 cs2 hd ih =>
      intro l hl
      rw [splitlines_cons_cr d d1 cs2 h13 hd] at hl
      rcases List.mem_cons.mp hl with rfl | hl2
      · intro x hx; simp at hx
      · exact ih l hl2
  | case5 d cs2 h13 hb ih =>
      intro l hl
      rw [splitlines_cons_break d cs2 h13 hb] at hl
      rcases List.mem_cons.mp hl with rfl | hl2
      · intro x hx; simp at hx
      · exact ih l hl2
  | case6 d cs2 h13 hb ih =>
      intro l hl
      have hb' : lineBreak d = false := Bool.not_eq_true _ ▸ hb
      rw [splitlines_cons_char d cs2 hb'] at hl
      cases hX : splitlines cs2 with
      | nil =>
          rw [hX] at hl
          simp only [consHead, List.mem_singleton] at hl
          subst hl
          intro x hx
          simp only [List.mem_singleton] at hx
          subst hx
          exact hb'
      | cons l0 ls0 =>
          rw [hX] at hl
          simp only [consHead] at hl
          rcases List.mem_cons.mp hl with rfl | hl2
          · intro x hx
            rcases List.mem_cons.mp hx with rfl | hx2
            · exact hb'
            · exact ih l0 (hX ▸ List.mem_cons_self _ _) x hx2
          · exact ih l (hX ▸ List.mem_cons_of_mem _ hl2)

theorem splitlines_inf (s : List Char) :
    (∀ l ∈ splitlines s, l <:+: s) ∧
      (∀ l0 rest, splitlines s = l0 :: rest → l0 <+: s) := by
  induction s using splitlines.induct with
  | case1 =>
      refine ⟨fun l hl => ?_, fun l0 rest h => ?_⟩
      · simp [splitlines_nil] at hl
      · simp [splitlines_nil] at h
  | case2 d h13 =>
      rw [splitlines_cons_cr_nil d h13]
      refine ⟨fun l hl => ?_, fun l0 rest h => ?_⟩
      · simp only [List.mem_singleton] at hl
        subst hl
        exact List.nil_infix
      · simp only [List.cons.injEq] at h
        rw [← h.1]
        exact List.nil_prefix
  | case3 d h13 d1 cs2 hd ih =>
      rw [splitlines_cons_crlf d d1 cs2 h13 hd]
      refine ⟨fun l hl => ?_, fun l0 rest h => ?_⟩
      · rcases List.mem_cons.mp hl with rfl | hl2
        · exact List.nil_infix
        · exact (ih.1 l hl2).trans
            (List.IsSuffix.isInfix ⟨[d, d1], rfl⟩)
      · simp only [List.cons.injEq] at h
        rw [← h.1]
        exact List.nil_prefix
  | case4 d h13 d1 cs2 hd ih =>
      rw [splitlines_cons_cr d d1 cs2 h13 hd]
      refine ⟨fun l hl => ?_, fun l0 rest h => ?_⟩
      · rcases List.mem_cons.mp hl with rfl | hl2
        · exact List.nil_infix
        · exact (ih.1 l hl2).trans (List.IsSuffix.isInfix ⟨[d], rfl⟩)
      · simp only [List.cons.injEq] at h
        rw [← h.1]
        exact List.nil_prefix
  | case5 d cs2 h13 hb ih =>
      rw [splitlines_cons_break d cs2 h13 hb]
      refine ⟨fun l hl => ?_, fun l0 rest h => ?_⟩
      · rcases List.mem_cons.mp hl with rfl | hl2
        · exact List.nil_infix
        · exact (ih.1 l hl2).trans (List.IsSuffix.isInfix ⟨[d], rfl⟩)
      · simp only [List.cons.injEq] at h
        rw [← h.1]
        exact List.nil_prefix
  | case6 d cs2 h13 hb ih =>
      have hb' : lineBreak d = false := Bool.not_eq_true _ ▸ hb
      rw [splitlines_cons_char d cs2 hb']
      cases hX : splitlines cs2 with
      | nil =>
          simp only [consHead]
          refine ⟨fun l hl => ?_, fun l0 rest h => ?_⟩
          · simp only [List.mem_singleton] at hl
            subst hl
            exact List.IsPrefix.isInfix ⟨cs2, rfl⟩
          · simp only [List.cons.injEq] at h
            rw [← h.1]
            exact ⟨cs2, rfl⟩
      | cons l0 ls0 =>
          simp only [consHead]
          have hpre : l0 <+: cs2 := ih.2 l0 ls0 hX
          refine ⟨fun l hl => ?_, fun l1 rest h => ?_⟩
          · rcases List.mem_cons.mp hl with rfl | hl2
            · obtain ⟨t, ht⟩ := hpre
              exact List.IsPrefix.isInfix ⟨t, by rw [List.cons_append, ht]⟩
            · exact ((ih.1 l (hX ▸ List.mem_cons_of_mem _ hl2))).trans
                (List.IsSuffix.isInfix ⟨[d], rfl⟩)
          · simp only [List.cons.injEq] at h
            obtain ⟨t, ht⟩ := hpre
            rw [← h.1]
            exact ⟨t, by rw [List.cons_append, ht]⟩

theorem joinLines_nil : joinLines [] = [] := rfl

theorem joinLines_singleton (l : List Char) : joinLines [l] = l := rfl

theorem joinLines_cons_cons (l l' : List Char) (ls : List (List Char)) :
    joinLines (l :: l' :: ls) = l ++ '\n' :: joinLines (l' :: ls) := rfl

theorem joinLines_cons_of_ne_nil (l : List Char) (ls : List (List Char))
    (h : ls ≠ []) : joinLines (l :: ls) = l ++ '\n' :: joinLines ls := by
  cases ls with
  | nil => exact absurd rfl h
  | cons l' ls' => exact joinLines_cons_cons l l' ls'

theorem mem_joinLines (ls : List (List Char)) :
    ∀ x ∈ joinLines ls, x = '\n' ∨ ∃ l ∈ ls, x ∈ l := by
  induction ls with
  | nil => intro x hx; simp [joinLines_nil] at hx
  | cons l ls ih =>
      intro x hx
      cases ls with
      | nil =>
          rw [joinLines_singleton] at hx
          exact Or.inr ⟨l, List.mem_cons_self _ _, hx⟩
      | cons l' ls' =>
          rw [joinLines_cons_cons] at hx
          rcases List.mem_append.mp hx with hx1 | hx2
          · exact Or.inr ⟨l, List.mem_cons_self _ _, hx1⟩
          · rcases List.mem_cons.mp hx2 with rfl | hx3
            · exact Or.inl rfl
            · rcases ih x hx3 with h1 | ⟨l2, hl2, hxl2⟩
              · exact Or.inl h1
              · exact Or.inr ⟨l2, List.mem_cons_of_mem _ hl2, hxl2⟩

theorem head_joinLines_of_ne_nil (l : List Char) (ls : List (List Char))
    (h : l ≠ []) : (joinLines (l :: ls)).head? = l.head? := by
  cases ls with
  | nil => rw [joinLines_singleton]
  | cons l' ls' =>
      rw [joinLines_cons_cons, List.head?_append]
      obtain ⟨c, cs, rfl⟩ := List.exists_cons_of_ne_nil h
      rfl

theorem head_joinLines (ls : List (List Char)) :
    ∀ y ∈ (joinLines ls).head?, (∃ l ∈ ls, y ∈ l.head?) ∨ y = '\n' := by
  intro y hy
  cases ls with
  | nil => simp [joinLines_nil] at hy
  | cons l ls' =>
      by_cases hl : l = []
      · subst hl
        cases ls' with
        | nil => rw [joinLines_singleton] at hy; simp at hy
        | cons l' ls2 =>
            rw [joinLines_cons_cons] at hy
            simp only [List.nil_append, List.head?_cons, Option.mem_def,
              Option.some.injEq] at hy
            exact Or.inr hy.symm
      · rw [head_joinLines_of_ne_nil l ls' hl] at hy
        exact Or.inl ⟨l, List.mem_cons_self _ _, hy⟩

theorem getLast_joinLines (ls : List (List Char)) :
    ∀ y ∈ (joinLines ls).getLast?, (∃ l ∈ ls, y ∈ l.getLast?) ∨ y = '\n' := by
  induction ls with
  | nil => intro y hy; simp [joinLines_nil] at hy
  | cons l ls' ih =>
      intro y hy
      cases ls' with
      | nil =>
          rw [joinLines_singleton] at hy
          exact Or.inl ⟨l, List.mem_cons_self _ _, hy⟩
      | cons l' ls2 =>
          rw [joinLines_cons_cons, List.getLast?_append] at hy
          cases hJ : joinLines (l' :: ls2) with
          | nil =>
              rw [hJ] at hy
              simp only [List.getLast?_singleton, Option.or_some,
                Option.mem_def, Option.some.injEq] at hy
              exact Or.inr hy.symm
          | cons w ws =>
              rw [hJ] at hy
              have hne : (w :: ws).getLast?.isSome := by
                cases hws : (w :: ws).getLast? with
                | none =>
                    exfalso
                    have := List.getLast?_isSome (l := w :: ws)
                    rw [hws] at this
                    simp at this
                | some z => rfl
              obtain ⟨z, hz⟩ := Option.isSome_iff_exists.mp hne
              have hcons : ('\n' :: w :: ws).getLast? = (w :: ws).getLast? :=
                List.getLast?_cons_cons
              rw [hcons, hz] at hy
              simp only [Option.or_some, Option.mem_def, Option.some.injEq] at hy
              subst hy
              rcases ih z (by rw [hJ, hz]; rfl) with ⟨l2, hl2, hzl2⟩ | h1
              · exact Or.inl ⟨l2, List.mem_cons_of_mem _ hl2, hzl2⟩
              · exact Or.inr h1

theorem chain_joinLines (S : Char → Char → Prop) (ls : List (List Char))
    (hline : ∀ l ∈ ls, List.Chain' S l)
    (hlast : ∀ l ∈ ls, ∀ x ∈ l.getLast?, S x '\n')
    (hhead : ∀ l ∈ ls, ∀ y ∈ l.head?, S '\n' y)
    (hnn : S '\n' '\n' ∨ ∀ l ∈ ls, l ≠ []) :
    List.Chain' S (joinLines ls) := by
  induction ls with
  | nil => simp [joinLines_nil]
  | cons l ls' ih =>
      cases ls' with
      | nil =>
          rw [joinLines_singleton]
          exact hline l (List.mem_cons_self _ _)
      | cons l' ls2 =>
          rw [joinLines_cons_cons]
          apply List.chain'_append.mpr
          refine ⟨hline l (List.mem_cons_self _ _), ?_, ?_⟩
          · apply List.chain'_cons'.mpr
            constructor
            · intro y hy
              rcases hnn with h1 | h2
              · rcases head_joinLines (l' :: ls2) y hy with ⟨l2, hl2, hyl2⟩ | rfl
                · exact hhead l2 (List.mem_cons_of_mem _ hl2) y hyl2
                · exact h1
              · have hl' : l' ≠ [] :=
                  h2 l' (List.mem_cons_of_mem _ (List.mem_cons_self _ _))
                rw [head_joinLines_of_ne_nil l' ls2 hl'] at hy
                exact hhead l' (List.mem_cons_of_mem _ (List.mem_cons_self _ _)) y hy
            · apply ih
              · exact fun l2 h => hline l2 (List.mem_cons_of_mem _ h)
              · exact fun l2 h => hlast l2 (List.mem_cons_of_mem _ h)
              · exact fun l2 h => hhead l2 (List.mem_cons_of_mem _ h)
              · rcases hnn with h1 | h2
                · exact Or.inl h1
                · exact Or.inr (fun l2 h => h2 l2 (List.mem_cons_of_mem _ h))
          · intro x hx y hy
            simp only [List.head?_cons, Option.mem_def, Option.some.injEq] at hy
            subst hy
            exact hlast l (List.mem_cons_self _ _) x hx

theorem joinLines_consHead (c : Char) (X : List (List Char)) :
    joinLines (consHead c X) = c :: joinLines X := by
  cases X with
  | nil => rfl
  | cons l ls =>
      cases ls with
      | nil => rfl
      | cons l' ls' => rfl

theorem splitlines_pure (l : List Char) (hch : ∀ x ∈ l, lineBreak x = false)
    (hne : l ≠ []) : splitlines l = [l] := by
  induction l with
  | nil => exact absurd rfl hne
  | cons c cs ih =>
      have hc : lineBreak c = false := hch c (List.mem_cons_self _ _)
      rw [splitlines_cons_char c cs hc]
      cases cs with
      | nil => rfl
      | cons d ds =>
          rw [ih (fun x hx => hch x (List.mem_cons_of_mem _ hx)) (by simp)]
          rfl

theorem splitlines_append (l rest : List Char)
    (hch : ∀ x ∈ l, lineBreak x = false) :
    splitlines (l ++ '\n' :: rest) = l :: splitlines rest := by
  induction l with
  | nil =>
      simp only [List.nil_append]
      rw [splitlines_cons_break '\n' rest (by decide) (by decide)]
  | cons c cs ih =>
      have hc : lineBreak c = false := hch c (List.mem_cons_self _ _)
      rw [List.cons_append, splitlines_cons_char c _ hc,
        ih (fun x hx => hch x (List.mem_cons_of_mem _ hx))]
      rfl

theorem splitlines_joinLines (ls : List (List Char))
    (h : ∀ l ∈ ls, (∀ x ∈ l, lineBreak x = false) ∧ l ≠ []) :
    splitlines (joinLines ls) = ls := by
  induction ls with
  | nil => rfl
  | cons l ls' ih =>
      cases ls' with
      | nil =>
          rw [joinLines_singleton]
          exact splitlines_pure l (h l (List.mem_cons_self _ _)).1
            (h l (List.mem_cons_self _ _)).2
      | cons l' ls2 =>
          rw [joinLines_cons_cons,
            splitlines_append l _ (h l (List.mem_cons_self _ _)).1,
            ih (fun l2 h2 => h l2 (List.mem_cons_of_mem _ h2))]

theorem joinLines_splitlines (t : List Char)
    (honly : ∀ x ∈ t, lineBreak x = true → x = '\n')
    (hlast : t.getLast? ≠ some '\n') :
    joinLines (splitlines t) = t := by
  induction t using splitlines.induct with
  | case1 => rfl
  | case2 d h13 =>
      exfalso
      have hd : d = '\n' :=
        honly d (List.mem_cons_self _ _) (by simp [lineBreak, h13])
      rw [hd] at h13
      exact absurd h13 (by decide)
  | case3 d h13 d1 cs2 hd ih =>
      exfalso
      have hd2 : d = '\n' :=
        honly d (List.mem_cons_self _ _) (by simp [lineBreak, h13])
      rw [hd2] at h13
      exact absurd h13 (by decide)
  | case4 d h13 d1 cs2 hd ih =>
      exfalso
      have hd2 : d = '\n' :=
        honly d (List.mem_cons_self _ _) (by simp [lineBreak, h13])
      rw [hd2] at h13
      exact absurd h13 (by decide)
  | case5 d cs h13 hb ih =>
      have hd : d = '\n' := honly d (List.mem_cons_self _ _) hb
      subst hd
      by_cases hcs : cs = []
      · subst hcs
        simp at hlast
      · rw [splitlines_cons_break '\n' cs h13 hb]
        have hX : splitlines cs ≠ [] := splitlines_ne_nil cs hcs
        rw [joinLines_cons_of_ne_nil [] _ hX, List.nil_append]
        congr 1
        apply ih
        · exact fun x hx => honly x (List.mem_cons_of_mem _ hx)
        · obtain ⟨e, es, rfl⟩ := List.exists_cons_of_ne_nil hcs
          rw [List.getLast?_cons_cons] at hlast
          exact hlast
  | case6 d cs h13 hb ih =>
      have hb2 : lineBreak d = false := Bool.not_eq_true _ ▸ hb
      rw [splitlines_cons_char d cs hb2, joinLines_consHead]
      by_cases hcs : cs = []
      · subst hcs
        rfl
      · congr 1
        apply ih
        · exact fun x hx => honly x (List.mem_cons_of_mem _ hx)
        · obtain ⟨e, es, rfl⟩ := List.exists_cons_of_ne_nil hcs
          rw [List.getLast?_cons_cons] at hlast
          exact hlast

theorem dropWhile_head_not (p : Char → Bool) (l : List Char) :
    ∀ y ∈ (l.dropWhile p).head?, p y = false := by
  induction l with
  | nil => intro y hy; simp at hy
  | cons c cs ih =>
      intro y hy
      rw [List.dropWhile_cons] at hy
      by_cases hp : p c
      · rw [if_pos hp] at hy
        exact ih y hy
      · rw [if_neg hp] at hy
        simp only [List.head?_cons, Option.mem_def, Option.some.injEq] at hy
        subst hy
        exact Bool.not_eq_true _ ▸ hp

theorem head_of_isPrefix {l1 l2 : List Char} (h : l1 <+: l2) (hne : l1 ≠ []) :
    l2.head? = l1.head? := by
  obtain ⟨t, rfl⟩ := h
  obtain ⟨c, cs, rfl⟩ := List.exists_cons_of_ne_nil hne
  rfl

theorem lstrip_suffix (l : List Char) : lstrip l <:+ l :=
  List.dropWhile_suffix pyWs

theorem lstrip_head (l : List Char) : ∀ y ∈ (lstrip l).head?, pyWs y = false :=
  dropWhile_head_not pyWs l

theorem lstrip_eq_self (l : List Char) (h : ∀ y ∈ l.head?, pyWs y = false) :
    lstrip l = l := by
  cases l with
  | nil => rfl
  | cons c cs =>
      rw [lstrip, List.dropWhile_cons, if_neg]
      rw [h c rfl]
      simp

theorem rstrip_pref (l : List Char) : rstrip l <+: l := by
  have h := List.reverse_prefix.mpr (List.dropWhile_suffix (l := l.reverse) pyWs)
  rwa [List.reverse_reverse] at h

theorem rstrip_getLast (l : List Char) :
    ∀ y ∈ (rstrip l).getLast?, pyWs y = false := by
  intro y hy
  rw [rstrip, List.getLast?_reverse] at hy
  exact dropWhile_head_not pyWs l.reverse y hy

theorem rstrip_eq_self (l : List Char) (h : ∀ y ∈ l.getLast?, pyWs y = false) :
    rstrip l = l := by
  rw [rstrip]
  have h2 : List.dropWhile pyWs l.reverse = l.reverse := by
    have h3 := lstrip_eq_self l.reverse (by
      intro y hy
      rw [List.head?_reverse] at hy
      exact h y hy)
    rwa [lstrip] at h3
  rw [h2, List.reverse_reverse]

theorem strip_eq_self (l : List Char) (hh : ∀ y ∈ l.head?, pyWs y = false)
    (hl : ∀ y ∈ l.getLast?, pyWs y = false) : strip l = l := by
  rw [strip, lstrip_eq_self l hh, rstrip_eq_self l hl]

theorem strip_inf (l : List Char) : strip l <:+: l :=
  (rstrip_pref (lstrip l)).isInfix.trans (lstrip_suffix l).isInfix

theorem strip_head (l : List Char) : ∀ y ∈ (strip l).head?, pyWs y = false := by
  intro y hy
  by_cases hne : strip l = []
  · rw [hne] at hy
    simp at hy
  · have h1 : (lstrip l).head? = (strip l).head? :=
      head_of_isPrefix (rstrip_pref (lstrip l)) hne
    apply lstrip_head l y
    rw [h1]
    exact hy

theorem strip_getLast (l : List Char) :
    ∀ y ∈ (strip l).getLast?, pyWs y = false :=
  rstrip_getLast (lstrip l)

theorem strip_idem (l : List Char) : strip (strip l) = strip l :=
  strip_eq_self (strip l) (strip_head l) (strip_getLast l)

theorem eq_space_of_toNat (c : Char) (h : c.toNat = 32) : c = ' ' :=
  charEq_of_toNat (h.trans (by decide))

theorem eq_nl_of_toNat (c : Char) (h : c.toNat = 10) : c = '\n' :=
  charEq_of_toNat (h.trans (by decide))

theorem nlChar_iff (c : Char) : nlChar c = true ↔ c = '\n' := by
  constructor
  · intro h
    exact eq_nl_of_toNat c (by simpa [nlChar] using h)
  · intro h
    subst h
    decide

theorem inlineWs_of_not_break (c : Char) (hb : lineBreak c = false) :
    inlineWs c = pyWs c := by
  simp [inlineWs, hb]

theorem chain_of_pairwise_mem {S : Char → Char → Prop} (l : List Char)
    (h : ∀ a ∈ l, ∀ b ∈ l, S a b) : List.Chain' S l := by
  induction l with
  | nil => simp
  | cons c cs ih =>
      apply List.chain'_cons'.mpr
      constructor
      · intro y hy
        exact h c (List.mem_cons_self _ _)
          y (List.mem_cons_of_mem _ (List.mem_of_mem_head? hy))
      · exact ih (fun a ha b hb =>
          h a (List.mem_cons_of_mem _ ha) b (List.mem_cons_of_mem _ hb))

theorem splitlines_first_nil_break (c : Char) (cs : List Char)
    (R : List (List Char)) (h : splitlines (c :: cs) = [] :: R) :
    lineBreak c = true := by
  by_contra hb
  have hb2 : lineBreak c = false := Bool.not_eq_true _ ▸ hb
  rw [splitlines_cons_char c cs hb2] at h
  cases hX : splitlines cs with
  | nil =>
      rw [hX] at h
      simp [consHead] at h
  | cons a b =>
      rw [hX] at h
      simp [consHead] at h

theorem splitlines_lstrip (t : List Char) :
    (∀ x ∈ t, lineBreak x = true → x = '\n') →
    List.Chain' edgeRel t →
    ∀ L R, splitlines t = L :: R →
      ((∀ y ∈ t.head?, inlineWs y = false) → lstrip L = L) ∧
      (∀ l ∈ R, lstrip l = l) := by
  induction t using splitlines.induct with
  | case1 =>
      intro _ _ L R h
      simp [splitlines_nil] at h
  | case2 d h13 =>
      intro honly _ L R _
      exfalso
      have hd : d = '\n' :=
        honly d (List.mem_cons_self _ _) (by simp [lineBreak, h13])
      rw [hd] at h13
      exact absurd h13 (by decide)
  | case3 d h13 d1 cs2 hd ih =>
      intro honly _ L R _
      exfalso
      have hd2 : d = '\n' :=
        honly d (List.mem_cons_self _ _) (by simp [lineBreak, h13])
      rw [hd2] at h13
      exact absurd h13 (by decide)
  | case4 d h13 d1 cs2 hd ih =>
      intro honly _ L R _
      exfalso
      have hd2 : d = '\n' :=
        honly d (List.mem_cons_self _ _) (by simp [lineBreak, h13])
      rw [hd2] at h13
      exact absurd h13 (by decide)
  | case5 d cs h13 hb ih =>
      intro honly hch L R h
      have hd : d = '\n' := honly d (List.mem_cons_self _ _) hb
      subst hd
      rw [splitlines_cons_break '\n' cs h13 hb] at h
      injection h with h1 h2
      subst h1
      subst h2
      refine ⟨fun _ => rfl, ?_⟩
      intro l hl
      cases hX : splitlines cs with
      | nil => rw [hX] at hl; simp at hl
      | cons L2 R2 =>
          rw [hX] at hl
          have ihcs := ih (fun x hx => honly x (List.mem_cons_of_mem _ hx))
            hch.tail L2 R2 hX
          rcases List.mem_cons.mp hl with rfl | hl2
          · apply ihcs.1
            intro y hy
            have hpair := (List.chain'_cons'.mp hch).1 y hy
            by_contra hcon
            exact hpair.1 ⟨rfl, Bool.of_not_eq_false hcon⟩
          · exact ihcs.2 l hl2
  | case6 d cs h13 hb ih =>
      intro honly hch L R h
      have hb2 : lineBreak d = false := Bool.not_eq_true _ ▸ hb
      rw [splitlines_cons_char d cs hb2] at h
      cases hX : splitlines cs with
      | nil =>
          rw [hX] at h
          simp only [consHead, List.cons.injEq] at h
          obtain ⟨h1, h2⟩ := h
          subst h1
          subst h2
          refine ⟨?_, by intro l hl; simp at hl⟩
          intro hhd
          have hd : pyWs d = false := by
            have h3 := hhd d rfl
            rwa [inlineWs_of_not_break d hb2] at h3
          apply lstrip_eq_self
          intro y hy
          simp only [List.head?_cons, Option.mem_def, Option.some.injEq] at hy
          subst hy
          exact hd
      | cons L0 R0 =>
          rw [hX] at h
          simp only [consHead, List.cons.injEq] at h
          obtain ⟨h1, h2⟩ := h
          subst h1
          subst h2
          have ihcs := ih (fun x hx => honly x (List.mem_cons_of_mem _ hx))
            hch.tail L0 R0 hX
          constructor
          · intro hhd
            have hd : pyWs d = false := by
              have h3 := hhd d rfl
              rwa [inlineWs_of_not_break d hb2] at h3
            apply lstrip_eq_self
            intro y hy
            simp only [List.head?_cons, Option.mem_def, Option.some.injEq] at hy
            subst hy
            exact hd
          · exact ihcs.2

theorem splitlines_rstrip (t : List Char) :
    (∀ x ∈ t, lineBreak x = true → x = '\n') →
    List.Chain' edgeRel t →
    (∀ y ∈ t.getLast?, inlineWs y = false) →
    ∀ l ∈ splitlines t, rstrip l = l := by
  induction t using splitlines.induct with
  | case1 =>
      intro _ _ _ l hl
      simp [splitlines_nil] at hl
  | case2 d h13 =>
      intro honly _ _ l _
      exfalso
      have hd : d = '\n' :=
        honly d (List.mem_cons_self _ _) (by simp [lineBreak, h13])
      rw [hd] at h13
      exact absurd h13 (by decide)
  | case3 d h13 d1 cs2 hd ih =>
      intro honly _ _ l _
      exfalso
      have hd2 : d = '\n' :=
        honly d (List.mem_cons_self _ _) (by simp [lineBreak, h13])
      rw [hd2] at h13
      exact absurd h13 (by decide)
  | case4 d h13 d1 cs2 hd ih =>
      intro honly _ _ l _
      exfalso
      have hd2 : d = '\n' :=
        honly d (List.mem_cons_self _ _) (by simp [lineBreak, h13])
      rw [hd2] at h13
      exact absurd h13 (by decide)
  | case5 d cs h13 hb ih =>
      intro honly hch hlast l hl
      have hd : d = '\n' := honly d (List.mem_cons_self _ _) hb
      subst hd
      rw [splitlines_cons_break '\n' cs h13 hb] at hl
      rcases List.mem_cons.mp hl with rfl | hl2
      · rfl
      · by_cases hcs : cs = []
        · subst hcs
          simp [splitlines_nil] at hl2
        · apply ih (fun x hx => honly x (List.mem_cons_of_mem _ hx)) hch.tail
          · intro y hy
            apply hlast y
            obtain ⟨e, es, rfl⟩ := List.exists_cons_of_ne_nil hcs
            rwa [List.getLast?_cons_cons]
          · exact hl2
  | case6 d cs h13 hb ih =>
      intro honly hch hlast l hl
      have hb2 : lineBreak d = false := Bool.not_eq_true _ ▸ hb
      rw [splitlines_cons_char d cs hb2] at hl
      cases hX : splitlines cs with
      | nil =>
          have hcs : cs = [] := by
            by_contra hcon
            exact splitlines_ne_nil cs hcon hX
          subst hcs
          rw [hX] at hl
          simp only [consHead, List.mem_singleton] at hl
          subst hl
          have hd : pyWs d = false := by
            have h3 := hlast d rfl
            rwa [inlineWs_of_not_break d hb2] at h3
          apply rstrip_eq_self
          intro y hy
          simp only [List.getLast?_singleton, Option.mem_def, Option.some.injEq] at hy
          subst hy
          exact hd
      | cons L0 R0 =>
          have hcs : cs ≠ [] := by
            intro hcon
            subst hcon
            simp [splitlines_nil] at hX
          have hlast2 : ∀ y ∈ cs.getLast?, inlineWs y = false := by
            intro y hy
            apply hlast y
            obtain ⟨e, es, rfl⟩ := List.exists_cons_of_ne_nil hcs
            rwa [List.getLast?_cons_cons]
          have ihcs := ih (fun x hx => honly x (List.mem_cons_of_mem _ hx))
            hch.tail hlast2
          rw [hX] at hl
          simp only [consHead] at hl
          rcases List.mem_cons.mp hl with rfl | hl2
          · have hfix : rstrip L0 = L0 :=
              ihcs L0 (hX ▸ List.mem_cons_self _ _)
            by_cases hL0 : L0 = []
            · subst hL0
              obtain ⟨e, es, rfl⟩ := List.exists_cons_of_ne_nil hcs
              have hbe : lineBreak e = true :=
                splitlines_first_nil_break e es R0 hX
              have he : e = '\n' :=
                honly e (List.mem_cons_of_mem _ (List.mem_cons_self _ _)) hbe
              subst he
              have hpair := (List.chain'_cons'.mp hch).1 '\n' rfl
              have hd : inlineWs d = false := by
                by_contra hcon
                exact hpair.2 ⟨Bool.of_not_eq_false hcon, rfl⟩
              rw [inlineWs_of_not_break d hb2] at hd
              apply rstrip_eq_self
              intro y hy
              simp only [List.getLast?_singleton, Option.mem_def,
                Option.some.injEq] at hy
              subst hy
              exact hd
            · have hgl := rstrip_getLast L0
              rw [hfix] at hgl
              apply rstrip_eq_self
              intro y hy
              obtain ⟨e, es, rfl⟩ := List.exists_cons_of_ne_nil hL0
              rw [List.getLast?_cons_cons] at hy
              exact hgl y hy
          · exact ihcs l (hX ▸ List.mem_cons_of_mem _ hl2)

end PyStr

namespace TryPy

theorem lowerChar_of_allowed (c : Char) (h : allowedChar c = true) :
    PyStr.lowerChar c = c := by
  have h2 : ¬(65 ≤ c.toNat ∧ c.toNat ≤ 90) := by
    simp only [allowedChar, decide_eq_true_eq] at h
    omega
  rw [PyStr.lowerChar, if_neg h2]

theorem space_of_allowed_spaceTab (c : Char) (h : allowedChar c = true)
    (hst : PyStr.spaceTab c = true) : c = ' ' := by
  apply PyStr.eq_space_of_toNat
  simp only [allowedChar, decide_eq_true_eq] at h
  simp only [PyStr.spaceTab, decide_eq_true_eq] at hst
  omega

theorem nl_of_allowed_break (c : Char) (h : allowedChar c = true)
    (hb : PyStr.lineBreak c = true) : c = '\n' := by
  apply PyStr.eq_nl_of_toNat
  simp only [allowedChar, decide_eq_true_eq] at h
  simp only [PyStr.lineBreak, decide_eq_true_eq] at hb
  omega

theorem mem_filtered (s : List Char) : ∀ c ∈ filtered s, allowedChar c = true :=
  fun _ hc => List.of_mem_filter hc

theorem mem_collapsed (s : List Char) : ∀ c ∈ collapsed s, allowedChar c = true := by
  intro c hc
  rcases PyStr.mem_collapseRunsAux _ _ _ _ _ hc with ⟨hm, _⟩ | rfl
  · exact mem_filtered s c hm
  · decide

theorem exists_of_mem_strippedLines (s : List Char) {l : List Char}
    (hl : l ∈ strippedLines s) :
    ∃ l0, l0 ∈ PyStr.splitlines (collapsed s) ∧ l = PyStr.strip l0 := by
  simp only [strippedLines, List.mem_map] at hl
  obtain ⟨l0, hl0, h⟩ := hl
  exact ⟨l0, hl0, h.symm⟩

theorem mem_strippedLines (s : List Char) :
    ∀ l ∈ strippedLines s, ∀ c ∈ l, allowedChar c = true := by
  intro l hl c hc
  obtain ⟨l0, hl0, rfl⟩ := exists_of_mem_strippedLines s hl
  exact mem_collapsed s c
    (((PyStr.splitlines_inf (collapsed s)).1 l0 hl0).subset
      ((PyStr.strip_inf l0).subset hc))

theorem lines_lineBreak (s : List Char) :
    ∀ l ∈ strippedLines s, ∀ c ∈ l, PyStr.lineBreak c = false := by
  intro l hl c hc
  obtain ⟨l0, hl0, rfl⟩ := exists_of_mem_strippedLines s hl
  exact PyStr.splitlines_chars (collapsed s) l0 hl0 c
    ((PyStr.strip_inf l0).subset hc)

theorem lines_strip_head (s : List Char) :
    ∀ l ∈ strippedLines s, ∀ y ∈ l.head?, PyStr.pyWs y = false := by
  intro l hl y hy
  obtain ⟨l0, _, rfl⟩ := exists_of_mem_strippedLines s hl
  exact PyStr.strip_head l0 y hy

theorem lines_strip_getLast (s : List Char) :
    ∀ l ∈ strippedLines s, ∀ y ∈ l.getLast?, PyStr.pyWs y = false := by
  intro l hl y hy
  obtain ⟨l0, _, rfl⟩ := exists_of_mem_strippedLines s hl
  exact PyStr.strip_getLast l0 y hy

theorem chain_spaceTab_lines (s : List Char) :
    ∀ l ∈ strippedLines s, List.Chain' (PyStr.noTwo PyStr.spaceTab) l := by
  intro l hl
  obtain ⟨l0, hl0, rfl⟩ := exists_of_mem_strippedLines s hl
  exact List.Chain'.infix (PyStr.chain_noTwo_collapseRunsAux _ _ _ _)
    ((PyStr.strip_inf l0).trans ((PyStr.splitlines_inf (collapsed s)).1 l0 hl0))

theorem chain_edge_lines (s : List Char) :
    ∀ l ∈ strippedLines s, List.Chain' PyStr.edgeRel l := by
  intro l hl
  apply PyStr.chain_of_pairwise_mem
  intro a ha b hb
  have hbr_a := lines_lineBreak s l hl a ha
  have hbr_b := lines_lineBreak s l hl b hb
  constructor
  · rintro ⟨rfl, -⟩
    exact absurd hbr_a (by decide)
  · rintro ⟨-, rfl⟩
    exact absurd hbr_b (by decide)

theorem chain_spaceTab_joined (s : List Char) :
    List.Chain' (PyStr.noTwo PyStr.spaceTab) (joined s) := by
  apply PyStr.chain_joinLines _ _ (chain_spaceTab_lines s)
  · intro l _ x _ h
    exact absurd h.2 (by decide)
  · intro l _ y _ h
    exact absurd h.1 (by decide)
  · exact Or.inl (fun h => absurd h.1 (by decide))

theorem chain_edge_joined (s : List Char) :
    List.Chain' PyStr.edgeRel (joined s) := by
  apply PyStr.chain_joinLines _ _ (chain_edge_lines s)
  · intro l hl x hx
    constructor
    · rintro ⟨-, h2⟩
      exact absurd h2 (by decide)
    · rintro ⟨h1, -⟩
      have h3 := lines_strip_getLast s l hl x hx
      simp [PyStr.inlineWs, h3] at h1
  · intro l hl y hy
    constructor
    · rintro ⟨-, h2⟩
      have h3 := lines_strip_head s l hl y hy
      simp [PyStr.inlineWs, h3] at h2
    · rintro ⟨h1, -⟩
      exact absurd h1 (by decide)
  · exact Or.inl ⟨fun h => absurd h.2 (by decide), fun h => absurd h.1 (by decide)⟩

theorem mem_joined (s : List Char) : ∀ c ∈ joined s, allowedChar c = true := by
  intro c hc
  rcases PyStr.mem_joinLines _ c hc with rfl | ⟨l, hl, hcl⟩
  · decide
  · exact mem_strippedLines s l hl c hcl

theorem head_joined_ws (s : List Char) :
    ∀ y ∈ (joined s).head?, PyStr.inlineWs y = false := by
  intro y hy
  rcases PyStr.head_joinLines _ y hy with ⟨l, hl, hyl⟩ | rfl
  · have h3 := lines_strip_head s l hl y hyl
    simp [PyStr.inlineWs, h3]
  · decide

theorem getLast_joined_ws (s : List Char) :
    ∀ y ∈ (joined s).getLast?, PyStr.inlineWs y = false := by
  intro y hy
  rcases PyStr.getLast_joinLines _ y hy with ⟨l, hl, hyl⟩ | rfl
  · have h3 := lines_strip_getLast s l hl y hyl
    simp [PyStr.inlineWs, h3]
  · decide

theorem preprocess_normalish (s : List Char) : normalish (preprocess_text s) := by
  have hpr := PyStr.nlChar_iff
  refine ⟨?_, ?_, ?_, ?_, ?_, ?_⟩
  · intro c hc
    rcases PyStr.mem_collapseRunsAux _ _ _ _ _ hc with ⟨hm, _⟩ | rfl
    · exact mem_joined s c hm
    · decide
  · exact PyStr.chain_collapseRuns_of_eq _ _ hpr _ _ (chain_spaceTab_joined s)
  · exact PyStr.chain_noTwo_collapseRunsAux _ _ _ _
  · exact PyStr.chain_collapseRuns_of_eq _ _ hpr _ _ (chain_edge_joined s)
  · intro y hy
    rw [preprocess_text, PyStr.head_collapseRuns_of_eq _ _ hpr] at hy
    exact head_joined_ws s y hy
  · intro y hy
    rw [preprocess_text, PyStr.getLast_collapseRuns_of_eq _ _ hpr] at hy
    exact getLast_joined_ws s y hy

theorem preprocess_eq_self (t : List Char) (h : normalish t)
    (hlast : t.getLast? ≠ some '\n') : preprocess_text t = t := by
  obtain ⟨hchars, hst, hnl, hedge, hhd, hgl⟩ := h
  have honly : ∀ x ∈ t, PyStr.lineBreak x = true → x = '\n' :=
    fun x hx hb => nl_of_allowed_break x (hchars x hx) hb
  have h1 : filtered t = t := by
    rw [filtered]
    have hmap : PyStr.lower t = t := by
      rw [PyStr.lower,
        List.map_congr_left (g := id)
          (fun c hc => lowerChar_of_allowed c (hchars c hc)),
        List.map_id]
    rw [hmap]
    exact List.filter_eq_self.mpr hchars
  have h2 : collapsed t = t := by
    rw [collapsed, h1]
    exact PyStr.collapseRuns_eq_self _ _ _
      (fun c hc hp => space_of_allowed_spaceTab c (hchars c hc) hp) hst
  have hfix : ∀ l ∈ PyStr.splitlines t, PyStr.strip l = l := by
    intro l hl2
    have hr : PyStr.rstrip l = l := by
      apply PyStr.splitlines_rstrip t honly hedge ?_ l hl2
      intro y hy
      exact hgl y hy
    have hlf : PyStr.lstrip l = l := by
      cases hsplit : PyStr.splitlines t with
      | nil =>
          rw [hsplit] at hl2
          simp at hl2
      | cons L R =>
          have hLR := PyStr.splitlines_lstrip t honly hedge L R hsplit
          rw [hsplit] at hl2
          rcases List.mem_cons.mp hl2 with rfl | hl3
          · exact hLR.1 hhd
          · exact hLR.2 l hl3
    rw [PyStr.strip, hlf, hr]
  have h3 : strippedLines t = PyStr.splitlines t := by
    rw [strippedLines, h2, List.map_congr_left (g := id) hfix, List.map_id]
  have h4 : joined t = t := by
    rw [joined, h3]
    exact PyStr.joinLines_splitlines t honly hlast
  rw [preprocess_text, h4]
  apply PyStr.collapseRuns_eq_self
  · intro c _ hp
    exact PyStr.eq_nl_of_toNat c (by simpa [PyStr.nlChar] using hp)
  · exact hnl

theorem preprocess_idem_of_no_trailing_nl (s : List Char)
    (h : (preprocess_text s).getLast? ≠ some '\n') :
    preprocess_text (preprocess_text s) = preprocess_text s :=
  preprocess_eq_self (preprocess_text s) (preprocess_normalish s) h

end TryPy

namespace DocLoader

theorem doc_lowerChar_of_allowed (c : Char) (h : allowedChar c = true) :
    PyStr.lowerChar c = c := by
  have h2 : ¬(65 ≤ c.toNat ∧ c.toNat ≤ 90) := by
    simp only [allowedChar, PyStr.pyWs, decide_eq_true_eq] at h
    omega
  rw [PyStr.lowerChar, if_neg h2]

theorem doc_mem_filtered (s : List Char) : ∀ c ∈ filtered s, allowedChar c = true :=
  fun _ hc => List.of_mem_filter hc

theorem doc_mem_collapsed (s : List Char) :
    ∀ c ∈ collapsed s, allowedChar c = true ∧ ¬ c.toNat = 9 := by
  intro c hc
  rcases PyStr.mem_collapseRunsAux _ _ _ _ _ hc with ⟨hm, hf⟩ | rfl
  · refine ⟨doc_mem_filtered s c hm, ?_⟩
    intro h9
    simp [PyStr.spaceTab, h9] at hf
  · exact ⟨by decide, by decide⟩

theorem exists_of_mem_keptLines (s : List Char) {l : List Char}
    (hl : l ∈ keptLines s) :
    ∃ l0, l0 ∈ PyStr.splitlines (collapsed s) ∧ l = PyStr.strip l0 := by
  have h2 := List.mem_of_mem_filter hl
  simp only [List.mem_map] at h2
  obtain ⟨l0, hl0, h⟩ := h2
  exact ⟨l0, hl0, h.symm⟩

theorem keptLines_ne_nil (s : List Char) : ∀ l ∈ keptLines s, l ≠ [] := by
  intro l hl
  have h2 := List.of_mem_filter hl
  simpa using h2

theorem keptLines_lineBreak (s : List Char) :
    ∀ l ∈ keptLines s, ∀ c ∈ l, PyStr.lineBreak c = false := by
  intro l hl c hc
  obtain ⟨l0, hl0, rfl⟩ := exists_of_mem_keptLines s hl
  exact PyStr.splitlines_chars (collapsed s) l0 hl0 c
    ((PyStr.strip_inf l0).subset hc)

theorem keptLines_chars (s : List Char) :
    ∀ l ∈ keptLines s, ∀ c ∈ l, allowedChar c = true ∧ ¬ c.toNat = 9 := by
  intro l hl c hc
  obtain ⟨l0, hl0, rfl⟩ := exists_of_mem_keptLines s hl
  exact doc_mem_collapsed s c
    (((PyStr.splitlines_inf (collapsed s)).1 l0 hl0).subset
      ((PyStr.strip_inf l0).subset hc))

theorem keptLines_strip_fixed (s : List Char) :
    ∀ l ∈ keptLines s, PyStr.strip l = l := by
  intro l hl
  obtain ⟨l0, _, rfl⟩ := exists_of_mem_keptLines s hl
  exact PyStr.strip_idem l0

theorem keptLines_chain_spaceTab (s : List Char) :
    ∀ l ∈ keptLines s, List.Chain' (PyStr.noTwo PyStr.spaceTab) l := by
  intro l hl
  obtain ⟨l0, hl0, rfl⟩ := exists_of_mem_keptLines s hl
  exact List.Chain'.infix (PyStr.chain_noTwo_collapseRunsAux _ _ _ _)
    ((PyStr.strip_inf l0).trans ((PyStr.splitlines_inf (collapsed s)).1 l0 hl0))

theorem preprocess_splitlines (s : List Char) :
    PyStr.splitlines (preprocess_text s) = keptLines s := by
  rw [preprocess_text]
  apply PyStr.splitlines_joinLines
  intro l hl
  exact ⟨keptLines_lineBreak s l hl, keptLines_ne_nil s l hl⟩

theorem mem_preprocess_doc (s : List Char) :
    ∀ c ∈ preprocess_text s, allowedChar c = true ∧ ¬ c.toNat = 9 := by
  intro c hc
  rw [preprocess_text] at hc
  rcases PyStr.mem_joinLines _ c hc with rfl | ⟨l, hl, hcl⟩
  · exact ⟨by decide, by decide⟩
  · exact keptLines_chars s l hl c hcl

theorem chain_spaceTab_preprocess (s : List Char) :
    List.Chain' (PyStr.noTwo PyStr.spaceTab) (preprocess_text s) := by
  rw [preprocess_text]
  apply PyStr.chain_joinLines _ _ (keptLines_chain_spaceTab s)
  · intro l _ x _ h
    exact absurd h.2 (by decide)
  · intro l _ y _ h
    exact absurd h.1 (by decide)
  · exact Or.inl (fun h => absurd h.1 (by decide))

theorem preprocess_idem (s : List Char) :
    preprocess_text (preprocess_text s) = preprocess_text s := by
  have hchars := mem_preprocess_doc s
  have h1 : filtered (preprocess_text s) = preprocess_text s := by
    rw [filtered]
    have hmap : PyStr.lower (preprocess_text s) = preprocess_text s := by
      rw [PyStr.lower,
        List.map_congr_left (g := id)
          (fun c hc => doc_lowerChar_of_allowed c (hchars c hc).1),
        List.map_id]
    rw [hmap]
    exact List.filter_eq_self.mpr (fun c hc => (hchars c hc).1)
  have h2 : collapsed (preprocess_text s) = preprocess_text s := by
    rw [collapsed, h1]
    apply PyStr.collapseRuns_eq_self
    · intro c hc hp
      apply PyStr.eq_space_of_toNat
      have h9 := (hchars c hc).2
      simp only [PyStr.spaceTab, decide_eq_true_eq] at hp
      omega
    · exact chain_spaceTab_preprocess s
  have h3 : keptLines (preprocess_text s) = keptLines s := by
    rw [keptLines, h2, preprocess_splitlines s,
      List.map_congr_left (g := id) (keptLines_strip_fixed s), List.map_id]
    apply List.filter_eq_self.mpr
    intro l hl
    simpa using keptLines_ne_nil s l hl
  show PyStr.joinLines (keptLines (preprocess_text s)) = preprocess_text s
  rw [h3, preprocess_text]

end DocLoader

namespace DocLoader

theorem chain_nl_preprocess (s : List Char) :
    List.Chain' (PyStr.noTwo PyStr.nlChar) (preprocess_text s) := by
  rw [preprocess_text]
  apply PyStr.chain_joinLines
  · intro l hl
    apply PyStr.chain_of_pairwise_mem
    intro a ha b hb
    rintro ⟨h1, -⟩
    have h2 := keptLines_lineBreak s l hl a ha
    rw [(PyStr.nlChar_iff a).mp h1] at h2
    exact absurd h2 (by decide)
  · intro l hl x hx
    rintro ⟨h1, -⟩
    have h2 := keptLines_lineBreak s l hl x (List.mem_of_mem_getLast? hx)
    rw [(PyStr.nlChar_iff x).mp h1] at h2
    exact absurd h2 (by decide)
  · intro l hl y hy
    rintro ⟨-, h2⟩
    have h3 := keptLines_lineBreak s l hl y (List.mem_of_mem_head? hy)
    rw [(PyStr.nlChar_iff y).mp h2] at h3
    exact absurd h3 (by decide)
  · exact Or.inr (keptLines_ne_nil s)

theorem no_blank_lines (s : List Char) :
    [] ∉ PyStr.splitlines (preprocess_text s) := by
  rw [preprocess_splitlines]
  intro h
  exact keptLines_ne_nil s [] h rfl

end DocLoader

/-- C1, counterexample: the claim "preprocess_text(preprocess_text(s)) =
preprocess_text(s) for every s, for each of the two normalizer variants"
fails on the try.py variant at the input "a\n\n": one application yields
"a\n" (splitlines drops the final empty line, so a single trailing
newline survives the newline-collapsing), and a second application yields
"a". -/
theorem c1_counterexample :
    TryPy.preprocess_text (TryPy.preprocess_text (("a\n\n").toList)) ≠
      TryPy.preprocess_text (("a\n\n").toList) := by decide

/-- C1, amended: the doc_loader.py normalizer is idempotent on every
input string; the try.py normalizer is idempotent on every input string
whose once-normalized form does not end in a newline character (in
general a second application removes such a trailing newline). -/
theorem c1_amended :
    (∀ s : List Char,
      DocLoader.preprocess_text (DocLoader.preprocess_text s) =
        DocLoader.preprocess_text s) ∧
    (∀ s : List Char, (TryPy.preprocess_text s).getLast? ≠ some '\n' →
      TryPy.preprocess_text (TryPy.preprocess_text s) =
        TryPy.preprocess_text s) :=
  ⟨DocLoader.preprocess_idem, TryPy.preprocess_idem_of_no_trailing_nl⟩

/-- C1, witness: the amended idempotence applied at the concrete input
"hello\nworld", whose normalized form has no trailing newline. -/
theorem c1_witness :
    (TryPy.preprocess_text (("hello\nworld").toList)).getLast? ≠ some '\n' ∧
    TryPy.preprocess_text (TryPy.preprocess_text (("hello\nworld").toList)) =
      TryPy.preprocess_text (("hello\nworld").toList) :=
  ⟨by decide, c1_amended.2 _ (by decide)⟩

/-- C2, counterexample: the claim that normalizer output never contains a
blank line fails for the try.py variant: on input "\na" the output is
"\na" again, whose first line is blank. -/
theorem c2_counterexample :
    [] ∈ PyStr.splitlines (TryPy.preprocess_text (("\na").toList)) := by decide

/-- C2, amended: for every input string, each variant's output contains
no tab character, only characters of its declared allowed class, and no
two consecutive newline characters; the doc_loader variant's output
moreover contains no blank line, while the try.py variant's output can
retain one blank leading line (and a trailing newline). -/
theorem c2_amended :
    (∀ (s : List Char) (c : Char), c ∈ TryPy.preprocess_text s →
      TryPy.allowedChar c = true ∧ c ≠ '\t') ∧
    (∀ s : List Char,
      List.Chain' (PyStr.noTwo PyStr.nlChar) (TryPy.preprocess_text s)) ∧
    (∀ (s : List Char) (c : Char), c ∈ DocLoader.preprocess_text s →
      DocLoader.allowedChar c = true ∧ c ≠ '\t') ∧
    (∀ s : List Char,
      List.Chain' (PyStr.noTwo PyStr.nlChar) (DocLoader.preprocess_text s)) ∧
    (∀ s : List Char, [] ∉ PyStr.splitlines (DocLoader.preprocess_text s)) := by
  refine ⟨?_, ?_, ?_, ?_, ?_⟩
  · intro s c hc
    have hall := (TryPy.preprocess_normalish s).1 c hc
    refine ⟨hall, ?_⟩
    rintro rfl
    exact absurd hall (by decide)
  · exact fun s => (TryPy.preprocess_normalish s).2.2.1
  · intro s c hc
    have h2 := DocLoader.mem_preprocess_doc s c hc
    refine ⟨h2.1, ?_⟩
    rintro rfl
    exact h2.2 (by decide)
  · exact DocLoader.chain_nl_preprocess
  · exact DocLoader.no_blank_lines

/-- C2, witness: the amended well-formedness applied at the concrete
input "hi" and the concrete output character h. -/
theorem c2_witness :
    ('h' ∈ TryPy.preprocess_text (("hi").toList) ∧
      TryPy.allowedChar 'h' = true ∧ 'h' ≠ '\t') ∧
    ('h' ∈ DocLoader.preprocess_text (("hi").toList) ∧
      DocLoader.allowedChar 'h' = true ∧ 'h' ≠ '\t') :=
  ⟨⟨by decide, c2_amended.1 (("hi").toList) 'h' (by decide)⟩,
   ⟨by decide, c2_amended.2.2.1 (("hi").toList) 'h' (by decide)⟩⟩

/-- C9: the two text-normalizer variants are not extensionally equal:
on the input "a:b" the doc_loader.py variant removes the colon (its
allowed class has no colon) while the try.py variant keeps it, so the
outputs differ. -/
theorem c9_variants_differ :
    ∃ s : List Char, DocLoader.preprocess_text s ≠ TryPy.preprocess_text s :=
  ⟨("a:b").toList, by decide⟩

namespace TryPy

theorem resizeLoop_le (w h : ℕ) (s : ℚ) (hs : 0 < s) : resizeLoop w h s hs ≤ s := by
  induction s, hs using resizeLoop.induct w h with
  | case1 s hs hg ih =>
      rw [resizeLoop, dif_pos hg]
      calc resizeLoop w h (s * (19 / 20)) (by positivity) ≤ s * (19 / 20) := ih
        _ ≤ s := by nlinarith
  | case2 s hs hg => rw [resizeLoop, dif_neg hg]

theorem resizeLoop_pos (w h : ℕ) (s : ℚ) (hs : 0 < s) : 0 < resizeLoop w h s hs := by
  induction s, hs using resizeLoop.induct w h with
  | case1 s hs hg ih => rw [resizeLoop, dif_pos hg]; exact ih
  | case2 s hs hg => rw [resizeLoop, dif_neg hg]; exact hs

theorem resizeLoop_exit (w h : ℕ) (s : ℚ) (hs : 0 < s) :
    ¬ loop_guard w h (resizeLoop w h s hs) := by
  induction s, hs using resizeLoop.induct w h with
  | case1 s hs hg ih => rw [resizeLoop, dif_pos hg]; exact ih
  | case2 s hs hg => rw [resizeLoop, dif_neg hg]; exact hg

theorem initScale_le_one (w h : ℕ) : initScale w h ≤ 1 := min_le_right _ _

theorem finalScale_le_initScale (w h : ℕ) (hw : 0 < w) (hh : 0 < h) :
    finalScale w h hw hh ≤ initScale w h := by
  rw [finalScale]
  exact resizeLoop_le w h (initScale w h) _

theorem finalScale_pos (w h : ℕ) (hw : 0 < w) (hh : 0 < h) :
    0 < finalScale w h hw hh := by
  rw [finalScale]
  exact resizeLoop_pos w h (initScale w h) _

theorem finalScale_exit (w h : ℕ) (hw : 0 < w) (hh : 0 < h) :
    ¬ loop_guard w h (finalScale w h hw hh) := by
  rw [finalScale]
  exact resizeLoop_exit w h (initScale w h) _

/-- C3: for every image with positive width and height,
resize_image_if_needed never increases either dimension, and when the
input exceeds either bound (an edge above 2048, which also covers a pixel
count above 2048*2048) the returned dimensions satisfy both the
pixel-count bound and the edge bound. -/
theorem c3_resize_bounds (w h : ℕ) (hw : 0 < w) (hh : 0 < h) :
    (resize_image_if_needed w h hw hh).1 ≤ w ∧
    (resize_image_if_needed w h hw hh).2 ≤ h ∧
    ((2048 < w ∨ 2048 < h ∨ 2048 * 2048 < w * h) →
      (resize_image_if_needed w h hw hh).1 * (resize_image_if_needed w h hw hh).2 ≤
          2048 * 2048 ∧
        (resize_image_if_needed w h hw hh).1 ≤ 2048 ∧
        (resize_image_if_needed w h hw hh).2 ≤ 2048) := by
  have hw2 : (0 : ℚ) < (w : ℚ) := by exact_mod_cast hw
  have hh2 : (0 : ℚ) < (h : ℚ) := by exact_mod_cast hh
  have hfpos := finalScale_pos w h hw hh
  by_cases hlt : finalScale w h hw hh < 1
  · have hres : resize_image_if_needed w h hw hh =
        ((⌊(w : ℚ) * finalScale w h hw hh⌋).toNat,
          (⌊(h : ℚ) * finalScale w h hw hh⌋).toNat) := by
      rw [resize_image_if_needed, if_pos hlt]
    have hwle : (⌊(w : ℚ) * finalScale w h hw hh⌋).toNat ≤ w := by
      rw [Int.toNat_le]
      calc ⌊(w : ℚ) * finalScale w h hw hh⌋ ≤ ⌊(w : ℚ)⌋ :=
            Int.floor_le_floor (by nlinarith)
        _ = (w : ℤ) := Int.floor_natCast w
    have hhle : (⌊(h : ℚ) * finalScale w h hw hh⌋).toNat ≤ h := by
      rw [Int.toNat_le]
      calc ⌊(h : ℚ) * finalScale w h hw hh⌋ ≤ ⌊(h : ℚ)⌋ :=
            Int.floor_le_floor (by nlinarith)
        _ = (h : ℤ) := Int.floor_natCast h
    refine ⟨by rw [hres]; exact hwle, by rw [hres]; exact hhle, ?_⟩
    intro _
    have hexit := finalScale_exit w h hw hh
    rw [loop_guard, not_lt] at hexit
    have ha : (0 : ℤ) ≤ ⌊(w : ℚ) * finalScale w h hw hh⌋ :=
      Int.floor_nonneg.mpr (by positivity)
    have hb : (0 : ℤ) ≤ ⌊(h : ℚ) * finalScale w h hw hh⌋ :=
      Int.floor_nonneg.mpr (by positivity)
    have hpx : (⌊(w : ℚ) * finalScale w h hw hh⌋).toNat *
        (⌊(h : ℚ) * finalScale w h hw hh⌋).toNat ≤ 2048 * 2048 := by
      have hcast : ((⌊(w : ℚ) * finalScale w h hw hh⌋).toNat *
          (⌊(h : ℚ) * finalScale w h hw hh⌋).toNat : ℤ) ≤ 2048 * 2048 := by
        push_cast [Int.toNat_of_nonneg ha, Int.toNat_of_nonneg hb]
        simpa [max_pixels] using hexit
      exact_mod_cast hcast
    have hedge : ∀ (d : ℕ), 0 < d → (0 : ℚ) < (d : ℚ) →
        finalScale w h hw hh ≤ max_dim / d →
        (⌊(d : ℚ) * finalScale w h hw hh⌋).toNat ≤ 2048 := by
      intro d hd hd2 hle
      rw [Int.toNat_le]
      have hdm : (d : ℚ) * finalScale w h hw hh ≤ 2048 := by
        have h2 : (d : ℚ) * finalScale w h hw hh ≤ (d : ℚ) * (max_dim / d) := by
          nlinarith
        have h3 : (d : ℚ) * (max_dim / d) = max_dim := by
          field_simp
        rw [h3] at h2
        simpa [max_dim] using h2
      calc ⌊(d : ℚ) * finalScale w h hw hh⌋ ≤ ⌊(2048 : ℚ)⌋ :=
            Int.floor_le_floor hdm
        _ = (2048 : ℤ) := by norm_num
    have hwedge : finalScale w h hw hh ≤ max_dim / w :=
      le_trans (finalScale_le_initScale w h hw hh)
        (le_trans (min_le_left _ _) (min_le_left _ _))
    have hhedge : finalScale w h hw hh ≤ max_dim / h :=
      le_trans (finalScale_le_initScale w h hw hh)
        (le_trans (min_le_left _ _) (min_le_right _ _))
    rw [hres]
    exact ⟨hpx, hedge w hw hw2 hwedge, hedge h hh hh2 hhedge⟩
  · have hres : resize_image_if_needed w h hw hh = (w, h) := by
      rw [resize_image_if_needed, if_neg hlt]
    refine ⟨by rw [hres], by rw [hres], ?_⟩
    intro hex
    exfalso
    have hbig : 2048 < w ∨ 2048 < h := by
      rcases hex with h1 | h1 | h1
      · exact Or.inl h1
      · exact Or.inr h1
      · by_contra hcon
        push_neg at hcon
        have : w * h ≤ 2048 * 2048 := Nat.mul_le_mul hcon.1 hcon.2
        omega
    have hlt1 : initScale w h < 1 := by
      rcases hbig with h1 | h1
      · have : max_dim / (w : ℚ) < 1 := by
          rw [div_lt_one hw2]
          simp only [max_dim]
          exact_mod_cast h1
        calc initScale w h ≤ max_dim / (w : ℚ) :=
              le_trans (min_le_left _ _) (min_le_left _ _)
          _ < 1 := this
      · have : max_dim / (h : ℚ) < 1 := by
          rw [div_lt_one hh2]
          simp only [max_dim]
          exact_mod_cast h1
        calc initScale w h ≤ max_dim / (h : ℚ) :=
              le_trans (min_le_left _ _) (min_le_right _ _)
          _ < 1 := this
    exact hlt (lt_of_le_of_lt (finalScale_le_initScale w h hw hh) hlt1)

/-- C3, witness: the bounds theorem applied at the concrete one-by-one
image. -/
theorem c3_witness :
    0 < 1 ∧
    ((resize_image_if_needed 1 1 Nat.one_pos Nat.one_pos).1 ≤ 1 ∧
      (resize_image_if_needed 1 1 Nat.one_pos Nat.one_pos).2 ≤ 1 ∧
      ((2048 < 1 ∨ 2048 < 1 ∨ 2048 * 2048 < 1 * 1) →
        (resize_image_if_needed 1 1 Nat.one_pos Nat.one_pos).1 *
            (resize_image_if_needed 1 1 Nat.one_pos Nat.one_pos).2 ≤ 2048 * 2048 ∧
          (resize_image_if_needed 1 1 Nat.one_pos Nat.one_pos).1 ≤ 2048 ∧
          (resize_image_if_needed 1 1 Nat.one_pos Nat.one_pos).2 ≤ 2048)) :=
  ⟨Nat.one_pos, c3_resize_bounds 1 1 Nat.one_pos Nat.one_pos⟩

/-- C4: the geometric-shrink while loop of resize_image_if_needed
terminates: for positive dimensions and a positive starting scale, after
some number n of multiplications by 0.95 the loop guard is false, so the
Lean model resizeLoop (and with it resize_image_if_needed) is a total
function. -/
theorem c4_loop_terminates (w h : ℕ) (s : ℚ) (hw : 0 < w) (hh : 0 < h)
    (hs : 0 < s) : ∃ n : ℕ, ¬ loop_guard w h (s * (19 / 20) ^ n) := by
  have hw2 : (0 : ℚ) < (w : ℚ) := by exact_mod_cast hw
  have hws : (0 : ℚ) < (w : ℚ) * s := by positivity
  obtain ⟨n, hn⟩ := exists_pow_lt_of_lt_one (x := 1 / ((w : ℚ) * s))
    (y := (19 : ℚ) / 20) (by positivity) (by norm_num)
  refine ⟨n, ?_⟩
  rw [loop_guard, not_lt]
  have hlt : (w : ℚ) * (s * (19 / 20) ^ n) < 1 := by
    have h2 : (w : ℚ) * s * ((19 : ℚ) / 20) ^ n <
        (w : ℚ) * s * (1 / ((w : ℚ) * s)) :=
      mul_lt_mul_of_pos_left hn hws
    rw [mul_one_div, div_self (ne_of_gt hws)] at h2
    calc (w : ℚ) * (s * (19 / 20) ^ n) = (w : ℚ) * s * ((19 : ℚ) / 20) ^ n := by
          ring
      _ < 1 := h2
  have hfa : ⌊(w : ℚ) * (s * (19 / 20) ^ n)⌋ ≤ 0 := by
    have h3 : ⌊(w : ℚ) * (s * (19 / 20) ^ n)⌋ < 1 := by
      rw [Int.floor_lt]
      push_cast
      exact hlt
    omega
  have hfb : (0 : ℤ) ≤ ⌊(h : ℚ) * (s * (19 / 20) ^ n)⌋ :=
    Int.floor_nonneg.mpr (by positivity)
  have h5 : ⌊(w : ℚ) * (s * (19 / 20) ^ n)⌋ * ⌊(h : ℚ) * (s * (19 / 20) ^ n)⌋ ≤ 0 :=
    mul_nonpos_iff.mpr (Or.inr ⟨hfa, hfb⟩)
  exact le_trans h5 (by norm_num [max_pixels])

/-- C4, witness: termination applied at the concrete one-by-one image
with starting scale 1. -/
theorem c4_witness :
    0 < 1 ∧ (0 : ℚ) < 1 ∧ ∃ n : ℕ, ¬ loop_guard 1 1 ((1 : ℚ) * (19 / 20) ^ n) :=
  ⟨Nat.one_pos, by norm_num,
    c4_loop_terminates 1 1 1 Nat.one_pos Nat.one_pos (by norm_num)⟩

end TryPy

namespace TryPy

theorem pdfImagesLoop_nil (env : PyEnv) (base_key : List Char) (idx : ℕ) :
    pdfImagesLoop env base_key [] idx = ([], none) := rfl

theorem pdfImagesLoop_cons (env : PyEnv) (base_key : List Char) (b : List Nat)
    (rest : List (List Nat)) (idx : ℕ) :
    pdfImagesLoop env base_key (b :: rest) idx =
      if b.length < 512 then pdfImagesLoop env base_key rest idx
      else
        match env.pngReencode b with
        | .error e => ([], some e)
        | .ok png =>
            (⟨base_key ++ ("/img_").toList ++ (Nat.repr idx).toList ++
                (".png").toList, png, ("image/png").toList⟩ ::
              (pdfImagesLoop env base_key rest (idx + 1)).1,
              (pdfImagesLoop env base_key rest (idx + 1)).2) := rfl

theorem pdfImagesLoop_cons_err (env : PyEnv) (base_key : List Char)
    (b : List Nat) (rest : List (List Nat)) (idx : ℕ) (e : PyErr)
    (hlen : ¬ b.length < 512) (hre : env.pngReencode b = .error e) :
    pdfImagesLoop env base_key (b :: rest) idx = ([], some e) := by
  rw [pdfImagesLoop_cons, if_neg hlen, hre]

theorem pdfImagesLoop_cons_ok (env : PyEnv) (base_key : List Char)
    (b : List Nat) (rest : List (List Nat)) (idx : ℕ) (png : List Nat)
    (hlen : ¬ b.length < 512) (hre : env.pngReencode b = .ok png) :
    pdfImagesLoop env base_key (b :: rest) idx =
      (⟨base_key ++ ("/img_").toList ++ (Nat.repr idx).toList ++
          (".png").toList, png, ("image/png").toList⟩ ::
        (pdfImagesLoop env base_key rest (idx + 1)).1,
        (pdfImagesLoop env base_key rest (idx + 1)).2) := by
  rw [pdfImagesLoop_cons, if_neg hlen, hre]

theorem pdfImagesLoop_spec (env : PyEnv) (base_key : List Char) :
    ∀ (imgs : List (List Nat)) (idx : ℕ),
      ∃ k, (pdfImagesLoop env base_key imgs idx).1 =
        (List.enumFrom idx
            ((imgs.filter (fun b => decide (512 ≤ b.length))).take k)).map
          (fun p => pdfImgWrite env base_key p.1 p.2) := by
  intro imgs
  induction imgs with
  | nil => intro idx; exact ⟨0, rfl⟩
  | cons b rest ih =>
      intro idx
      by_cases hlen : b.length < 512
      · have hf : (b :: rest).filter (fun b => decide (512 ≤ b.length)) =
            rest.filter (fun b => decide (512 ≤ b.length)) := by
          rw [List.filter_cons, if_neg]
          simp only [decide_eq_true_eq]
          omega
        obtain ⟨k, hk⟩ := ih idx
        refine ⟨k, ?_⟩
        rw [pdfImagesLoop_cons, if_pos hlen, hf, hk]
      · have hf : (b :: rest).filter (fun b => decide (512 ≤ b.length)) =
            b :: rest.filter (fun b => decide (512 ≤ b.length)) := by
          rw [List.filter_cons, if_pos]
          simp only [decide_eq_true_eq]
          omega
        cases hre : env.pngReencode b with
        | error e =>
            refine ⟨0, ?_⟩
            rw [pdfImagesLoop_cons_err env base_key b rest idx e hlen hre]
            simp
        | ok png =>
            obtain ⟨k, hk⟩ := ih (idx + 1)
            refine ⟨k + 1, ?_⟩
            rw [pdfImagesLoop_cons_ok env base_key b rest idx png hlen hre]
            change _ :: (pdfImagesLoop env base_key rest (idx + 1)).1 = _
            rw [hf, List.take_succ_cons, List.enumFrom_cons, List.map_cons, hk]
            congr 1
            rw [pdfImgWrite, hre]
            rfl

theorem image_writes_nil : image_writes [] = [] := rfl

theorem image_writes_cons_text (key2 : List Char) (body : List Nat)
    (ws : List S3Write) :
    image_writes (⟨key2, body, ("text/plain").toList⟩ :: ws) = image_writes ws := by
  have hneg : ¬ (decide ((("text/plain").toList : List Char) =
      ("image/png").toList) = true) := by decide
  rw [image_writes, image_writes, List.filter_cons, if_neg hneg]

/-- C8: for every PDF input, every date and every behaviour of the
libraries, the image artifacts process_pdf writes are exactly the
re-encodings of an initial prefix of those embedded images whose raw
byte length is at least 512 (the whole of them when nothing raises),
keyed img_1.png, img_2.png, ... consecutively in encounter order.  In
particular no artifact is written for an image below 512 bytes. -/
theorem c8_pdf_image_filter (env : PyEnv) (content : List Nat)
    (base_key : List Char) :
    ∃ k, image_writes (process_pdf env content base_key).1 =
      (List.enumFrom 1
          (((pdf_images_flat env content).filter
              (fun b => decide (512 ≤ b.length))).take k)).map
        (fun p => pdfImgWrite env base_key p.1 p.2) := by
  cases hp : env.pdfPages content with
  | error e =>
      refine ⟨0, ?_⟩
      simp only [process_pdf, hp]
      rfl
  | ok pages =>
      cases hi : env.pdfImages content with
      | error e =>
          refine ⟨0, ?_⟩
          simp only [process_pdf, hp, hi]
          rw [image_writes_cons_text, image_writes_nil]
          rfl
      | ok pageImgs =>
          obtain ⟨k, hk⟩ := pdfImagesLoop_spec env base_key pageImgs.flatten 1
          refine ⟨k, ?_⟩
          simp only [process_pdf, hp, hi]
          rw [image_writes_cons_text, image_writes]
          have hall : ∀ wr ∈ (List.enumFrom 1
              ((pageImgs.flatten.filter (fun b => decide (512 ≤ b.length))).take k)).map
                (fun p => pdfImgWrite env base_key p.1 p.2),
              decide (wr.contentType = ("image/png").toList) = true := by
            intro wr hwr
            simp only [List.mem_map] at hwr
            obtain ⟨p, _, rfl⟩ := hwr
            simp [pdfImgWrite]
          rw [hk, List.filter_eq_self.mpr hall]
          have hflat : pdf_images_flat env content = pageImgs.flatten := by
            rw [pdf_images_flat, hi]
          rw [hflat]

/-- C5: for every key whose lower-cased extension is not among .txt,
.pdf, .docx, .png, .jpg, .jpeg, process_file makes no storage write and
raises no exception, for every library behaviour, date and content. -/
theorem c5_unsupported_no_writes (env : PyEnv) (date key : List Char)
    (content : List Nat)
    (h : (OsPath.splitext_ext key).map PyStr.lowerChar ∉
      [(".txt").toList, (".pdf").toList, (".docx").toList,
       (".png").toList, (".jpg").toList, (".jpeg").toList]) :
    process_file env date key content = ([], none) := by
  simp only [List.mem_cons, List.not_mem_nil, or_false, not_or] at h
  obtain ⟨h1, h2, h3, h4, h5, h6⟩ := h
  have hmem : (OsPath.splitext_ext key).map PyStr.lowerChar ∉
      [(".png").toList, (".jpg").toList, (".jpeg").toList] := by
    simp only [List.mem_cons, List.not_mem_nil, or_false, not_or]
    exact ⟨h4, h5, h6⟩
  simp only [process_file]
  rw [if_neg h1, if_neg h2, if_neg h3, if_neg hmem]

/-- C5, witness: the theorem applied to the concrete unsupported key
uploads/data.csv. -/
theorem c5_witness :
    ((OsPath.splitext_ext (("uploads/data.csv").toList)).map PyStr.lowerChar ∉
      [(".txt").toList, (".pdf").toList, (".docx").toList,
       (".png").toList, (".jpg").toList, (".jpeg").toList]) ∧
    process_file sampleEnv (("10-Oct-25").toList) (("uploads/data.csv").toList)
      [] = ([], none) :=
  ⟨by decide, c5_unsupported_no_writes sampleEnv (("10-Oct-25").toList)
    (("uploads/data.csv").toList) [] (by decide)⟩

/-- C6: an event whose key starts with the output prefix triggers no
processing and no storage write: for every processing function (in the
source, process_file), lambda_handler returns the empty write trace and
no exception, without invoking it. -/
theorem c6_recursion_guard
    (processFn : List Char → List Nat → List S3Write × Option PyErr)
    (key : List Char) (content : List Nat)
    (h : OUTPUT_PREFIX.isPrefixOf key = true) :
    lambda_handler processFn key content = ([], none) := by
  rw [lambda_handler]
  by_cases h1 : key.getLast? = some '/'
  · rw [if_pos h1]
  · rw [if_neg h1, if_pos h]

/-- C6, witness: the guard applied to a concrete key under the output
prefix, with a processing function that would write if invoked. -/
theorem c6_witness :
    OUTPUT_PREFIX.isPrefixOf (("trail-base-vedant-2025/x.txt").toList) = true ∧
    lambda_handler (fun k _ => ([⟨k, [], ("text/plain").toList⟩], none))
      (("trail-base-vedant-2025/x.txt").toList) [] = ([], none) :=
  ⟨by decide, c6_recursion_guard _ (("trail-base-vedant-2025/x.txt").toList) []
    (by decide)⟩

/-- C7: on any key with extension .txt and any content whose UTF-8
decoding is "Hello   World\n\n\nFoo", process_file writes exactly one
artifact: the text object base/txt whose body is the encoding of
"hello world\nfoo", and zero image artifacts; nothing raises. -/
theorem c7_txt_routing (env : PyEnv) (date key : List Char) (content : List Nat)
    (hext : (OsPath.splitext_ext key).map PyStr.lowerChar = (".txt").toList)
    (hdec : env.decodeUtf8 content = ("Hello   World\n\n\nFoo").toList) :
    process_file env date key content =
      ([⟨OUTPUT_PREFIX ++ date ++ ('/' :: OsPath.basename key) ++ ("/txt").toList,
          env.encodeUtf8 (("hello world\nfoo").toList), ("text/plain").toList⟩],
        none) := by
  simp only [process_file]
  rw [hext, if_pos rfl, process_txt, hdec]
  have hnorm : preprocess_text (("Hello   World\n\n\nFoo").toList) =
      ("hello world\nfoo").toList := by decide
  rw [hnorm]

/-- C7, witness: the routing theorem applied to the concrete key
uploads/note.txt under sampleEnv, whose decoder yields the sample text. -/
theorem c7_witness :
    (OsPath.splitext_ext (("uploads/note.txt").toList)).map PyStr.lowerChar =
        (".txt").toList ∧
    sampleEnv.decodeUtf8 [] = ("Hello   World\n\n\nFoo").toList ∧
    process_file sampleEnv (("10-Oct-25").toList) (("uploads/note.txt").toList)
        [] =
      ([⟨OUTPUT_PREFIX ++ (("10-Oct-25").toList) ++
          ('/' :: OsPath.basename (("uploads/note.txt").toList)) ++
          ("/txt").toList,
          sampleEnv.encodeUtf8 (("hello world\nfoo").toList),
          ("text/plain").toList⟩], none) :=
  ⟨by decide, rfl, c7_txt_routing sampleEnv (("10-Oct-25").toList)
    (("uploads/note.txt").toList) [] (by decide) rfl⟩

end TryPy

namespace DocLoader

/-- C10 (code bug in the source): in standalone mode a .txt path whose
read succeeds never returns normally: the local variable images is
assigned only in the .pdf and .docx branches, so the return statement
raises UnboundLocalError, even though loading and normalization
succeeded.  The claim (and the spec) require the call to return the
normalized text with the (empty) image list instead. -/
theorem c10_txt_raises (env : LoaderEnv) (file_path raw : List Char)
    (hext : (OsPath.splitext_ext file_path).map PyStr.lowerChar = (".txt").toList)
    (hload : env.loadTxt file_path = .ok raw) :
    load_and_process_doc env file_path = .error .unboundLocal := by
  simp only [load_and_process_doc]
  rw [hext, if_neg (by decide), if_neg (by decide), if_pos rfl, hload]
  rfl

/-- C10, witness: the failing behaviour evaluated at the concrete path
notes.txt with a loader that reads the two-character file "hi". -/
theorem c10_witness :
    (OsPath.splitext_ext (("notes.txt").toList)).map PyStr.lowerChar =
        (".txt").toList ∧
    sampleLoaderEnv.loadTxt (("notes.txt").toList) = .ok (("hi").toList) ∧
    load_and_process_doc sampleLoaderEnv (("notes.txt").toList) =
      .error .unboundLocal :=
  ⟨by decide, rfl, c10_txt_raises sampleLoaderEnv (("notes.txt").toList)
    (("hi").toList) (by decide) rfl⟩

end DocLoader

section NormalizerChecks

example : TryPy.preprocess_text (("Hello   World\n\n\nFoo").toList) =
    (("hello world\nfoo").toList) := by decide

example : TryPy.preprocess_text (("a\n\n").toList) = (("a\n").toList) := by decide

example : TryPy.preprocess_text (("a\n").toList) = (("a").toList) := by decide

example : TryPy.preprocess_text (("\na").toList) = (("\na").toList) := by decide

example : DocLoader.preprocess_text (("a\n\n").toList) = (("a").toList) := by decide

example : DocLoader.preprocess_text (("a:b").toList) = (("ab").toList) := by decide

example : TryPy.preprocess_text (("a:b").toList) = (("a:b").toList) := by decide

end NormalizerChecks
